import Mathlib

/-!
Composefs: digest parsing, inode flags, file handles and the kernel glue.

A shallow embedding of the parts of `kernel/lcfs.h`, `kernel/cfs.c` and
`libcomposefs/lcfs-internal.h` that the specification talks about, followed by
the theorems relating the specification to that code.

Conventions of the embedding:

* a C `char` / `u8` is the natural number of its byte (`0..255`); the range
  tests of the source (`c >= '0' && c <= '9'` ...) give the same answer for a
  signed and an unsigned `char`, since every byte above 127 fails all of them;
* a buffer `(pointer, length)` is the list of its bytes;
* a fixed-width store truncates explicitly (`% 256`, `% 2 ^ 32`, ...);
* a function that writes through an out-pointer returns the buffer next to
  its return code.
-/

namespace Composefs

/-! ## `kernel/lcfs.h` : digests from payload names -/

/-- Constant `LCFS_DIGEST_SIZE` of lcfs.h. -/
def LCFS_DIGEST_SIZE : Nat := 32

/-- Function `lcfs_xdigit_value` of lcfs.h: the value of a hexadecimal digit, `-1` for
any other character.  The character constants are written as their ASCII codes:
`'0' = 48`, `'9' = 57`, `'A' = 65`, `'F' = 70`, `'a' = 97`, `'f' = 102`. -/
def lcfs_xdigit_value (c : Nat) : Int :=
  if 48 ≤ c ∧ c ≤ 57 then (c : Int) - 48
  else if 65 ≤ c ∧ c ≤ 70 then (c : Int) - 65 + 10
  else if 97 ≤ c ∧ c ≤ 102 then (c : Int) - 97 + 10
  else -1

/-- The local variables of `lcfs_digest_from_payload` that live across loop
iterations, together with the output buffer. -/
structure PayloadLoop where
  last_digit : Nat
  n_nibbles : Nat
  digest_out : List Nat
  deriving DecidableEq, Repr

/-- How the `for` loop of `lcfs_digest_from_payload` is left: by a `return`
inside the body, or by falling out of it (`break`, or `p == end`). -/
inductive LoopExit where
  | returned (ret : Int) (digest_out : List Nat)
  | fell (st : PayloadLoop)
  deriving DecidableEq, Repr

/-- The `for (p = payload; p != end; p++)` loop of `lcfs_digest_from_payload`,
run over the bytes that are still ahead of `p`.  `'/' = 47`, `'.' = 46`. -/
def lcfs_digest_loop : List Nat → PayloadLoop → LoopExit
  | [], st => .fell st
  | c :: rest, st =>
    if c = 47 then lcfs_digest_loop rest st
    else if c = 46 then .fell st
    else if st.n_nibbles = LCFS_DIGEST_SIZE * 2 then .returned (-1) st.digest_out
    else
      let digit := lcfs_xdigit_value c
      if digit = -1 then .returned (-1) st.digest_out
      else
        let n_nibbles := st.n_nibbles + 1
        let digest_out :=
          if n_nibbles % 2 = 0 then
            st.digest_out.set (n_nibbles / 2 - 1)
              (((st.last_digit <<< 4) ||| digit.toNat) % 256)
          else st.digest_out
        lcfs_digest_loop rest ⟨digit.toNat % 256, n_nibbles, digest_out⟩

/-- What `lcfs_digest_from_payload` hands back: the `int` it returns and the
contents of `digest_out` afterwards. -/
structure DigestResult where
  ret : Int
  digest_out : List Nat
  deriving DecidableEq, Repr

/-- The tail of `lcfs_digest_from_payload` after the loop. -/
def lcfs_digest_finish : LoopExit → DigestResult
  | .returned ret out => ⟨ret, out⟩
  | .fell st =>
    if st.n_nibbles ≠ LCFS_DIGEST_SIZE * 2 then ⟨-1, st.digest_out⟩
    else ⟨0, st.digest_out⟩

/-- Function `lcfs_digest_from_payload` of lcfs.h.  `payload` is the byte string
`payload[0 .. payload_len-1]`, `digest_out` the caller's buffer on entry. -/
def lcfs_digest_from_payload (payload : List Nat) (digest_out : List Nat) : DigestResult :=
  lcfs_digest_finish (lcfs_digest_loop payload ⟨0, 0, digest_out⟩)

/-! ### Vocabulary of the specification for payload names -/

/-- The hexadecimal digits (ASCII code, value): `0-9`, `A-F`, `a-f`. -/
def hex_digits : List (Nat × Nat) :=
  [(48, 0), (49, 1), (50, 2), (51, 3), (52, 4), (53, 5), (54, 6), (55, 7), (56, 8), (57, 9),
   (65, 10), (66, 11), (67, 12), (68, 13), (69, 14), (70, 15),
   (97, 10), (98, 11), (99, 12), (100, 13), (101, 14), (102, 15)]

/-- The value of a character as a hexadecimal digit, if it is one. -/
def hex_value (c : Nat) : Option Nat :=
  (hex_digits.find? (fun e => e.1 == c)).map (fun e => e.2)

/-- Whether a character is a hexadecimal digit. -/
def is_hex (c : Nat) : Bool := (hex_value c).isSome

/-- The value of a hexadecimal digit (0 for any other character). -/
def value (c : Nat) : Nat := (hex_value c).getD 0

/-- The characters of a payload that count as digits: those before the first
`'.'` (all of them when there is none), with every `'/'` removed. -/
def payload_digits (p : List Nat) : List Nat :=
  (p.takeWhile (fun c => c ≠ 46)).filter (fun c => c ≠ 47)

/-- Pairwise decoding of a digit string into bytes, high nibble first. -/
def decode_pairs : List Nat → List Nat
  | a :: b :: rest => (16 * value a + value b) :: decode_pairs rest
  | _ => []

/-- The payload `5f/A00123...9D.file` of the specification's test: two digits,
a path separator, sixty-two more digits and an extension. -/
def sample_payload : List Nat :=
  [53, 102, 47, 65, 48, 48, 49, 50, 51, 52, 53, 54, 55, 56, 57, 97, 98, 99, 100, 101, 102, 65, 66, 67, 68, 69, 70, 48, 49, 50, 51, 52, 53, 54, 55, 56, 57, 97, 98, 99, 100, 101, 102, 65, 66, 67, 68, 69, 70, 48, 48, 102, 102, 49, 48, 101, 55, 99, 51, 66, 50, 97, 52, 57, 68, 46, 102, 105, 108, 101]

/-- The same sixty-four digits split by a second path separator and without an
extension. -/
def sample_payload_split : List Nat :=
  [53, 102, 47, 65, 48, 48, 49, 50, 51, 52, 53, 47, 54, 55, 56, 57, 97, 98, 99, 100, 101, 102, 65, 66, 67, 68, 69, 70, 48, 49, 50, 51, 52, 53, 54, 55, 56, 57, 97, 98, 99, 100, 101, 102, 65, 66, 67, 68, 69, 70, 48, 48, 102, 102, 49, 48, 101, 55, 99, 51, 66, 50, 97, 52, 57, 68]

/-! ## `kernel/cfs.c` : what the kernel headers provide

The constants below come from the kernel's uapi headers, which are not part of
the repository; they have the values of `asm-generic`. -/

/-- Constant `EPERM` of errno-base.h. -/
def EPERM : Int := 1
/-- Constant `EIO` of errno-base.h. -/
def EIO : Int := 5
/-- Constant `EINVAL` of errno-base.h. -/
def EINVAL : Int := 22
/-- Constant `EROFS` of errno-base.h. -/
def EROFS : Int := 30
/-- Constant `ENAMETOOLONG` of errno.h. -/
def ENAMETOOLONG : Int := 36
/-- Constant `ESTALE` of errno.h. -/
def ESTALE : Int := 116

/-- Constant `O_WRONLY` of fcntl.h. -/
def O_WRONLY : Nat := 0o1
/-- Constant `O_RDWR` of fcntl.h. -/
def O_RDWR : Nat := 0o2
/-- Constant `O_CREAT` of fcntl.h. -/
def O_CREAT : Nat := 0o100
/-- Constant `O_EXCL` of fcntl.h. -/
def O_EXCL : Nat := 0o200
/-- Constant `O_TRUNC` of fcntl.h. -/
def O_TRUNC : Nat := 0o1000

/-- A kernel pointer result: `NULL`, an `ERR_PTR(e)` (with `e` the negative
errno that `PTR_ERR` gives back), or a valid object. -/
inductive KPtr (α : Type) where
  | null
  | err (e : Int)
  | ok (a : α)
  deriving DecidableEq, Repr

/-- Function `memcmp(a, b, n)` over byte lists: the sign of the first difference among
the first `n` bytes.  Reading past the end of a buffer does not occur for the
callers modelled here; the last equation only makes the function total. -/
def memcmp : List Nat → List Nat → Nat → Int
  | _, _, 0 => 0
  | a :: as, b :: bs, n + 1 =>
    if a < b then -1 else if b < a then 1 else memcmp as bs n
  | _, _, _ + 1 => 0

/-- What cfs.c obtains from a `struct fsverity_info` through
`lcfs_fsverity_info_get_digest` (lcfs-verity.h, not in the repository's
sources here): the digest bytes it returns a pointer to and the size it
stores in `*digest_size`. -/
structure fsverity_info where
  verity_digest : List Nat
  digest_size : Nat
  deriving DecidableEq, Repr

/-- A backing `struct file`: an identity and the result of
`fsverity_get_info(d_inode(f->f_path.dentry))`, `none` for `NULL`. -/
structure backing_file where
  ident : Nat
  verity_info : Option fsverity_info
  deriving DecidableEq, Repr

/-- The values `file->private_data` takes in cfs.c. -/
inductive private_data where
  | unset
  | empty_file
  | real (f : backing_file)
  deriving DecidableEq, Repr

/-- The fields of the opened `struct file` that `cfs_open_file` touches. -/
structure open_file where
  f_flags : Nat
  private_data : private_data
  deriving DecidableEq, Repr

/-- The `struct cfs_info` of cfs.c (the mount's state), without the lcfs context
and the root mount, which are passed separately where they are used. -/
structure cfs_info where
  descriptor_path : Option (List Nat)
  base_path : Option (List Nat)
  base : Option backing_file
  noverity : Bool
  has_digest : Bool
  digest : List Nat
  deriving DecidableEq, Repr

/-! ## `kernel/lcfs.h` : the decoded records -/

/-- The `struct lcfs_vdata_s` of lcfs.h. -/
structure lcfs_vdata_s where
  off : Nat
  len : Nat
  deriving DecidableEq, Repr

/-- The `struct timespec64` of the kernel. -/
structure timespec64 where
  tv_sec : Int
  tv_nsec : Int
  deriving DecidableEq, Repr

/-- The `struct lcfs_inode_s` of lcfs.h, the decoded inode record. -/
structure lcfs_inode_s where
  flags : Nat
  payload_length : Nat
  st_mode : Nat
  st_nlink : Nat
  st_uid : Nat
  st_gid : Nat
  st_rdev : Nat
  st_size : Nat
  xattrs : lcfs_vdata_s
  digest : List Nat
  st_mtim : timespec64
  st_ctim : timespec64
  deriving DecidableEq, Repr

/-- The `struct lcfs_dentry_s` of lcfs.h. -/
structure lcfs_dentry_s where
  inode_index : Nat
  name_len : Nat
  d_type : Nat
  pad : Nat
  deriving DecidableEq, Repr

/-- The `struct lcfs_dir_s` of lcfs.h: the entry table, and the name bytes that
follow it in the same allocation. -/
structure lcfs_dir_s where
  n_dentries : Nat
  dentries : List lcfs_dentry_s
  names : List Nat
  deriving DecidableEq, Repr

/-- The `struct lcfs_xattr_element_s` of lcfs.h. -/
structure lcfs_xattr_element_s where
  key_length : Nat
  value_length : Nat
  deriving DecidableEq, Repr

/-- The `struct lcfs_xattr_header_s` of lcfs.h, with the key and value bytes that
follow the header. -/
structure lcfs_xattr_header_s where
  n_attr : Nat
  attr : List lcfs_xattr_element_s
  data : List Nat
  deriving DecidableEq, Repr

/-! ## `kernel/cfs.c` : inodes -/

/-- Constant `S_IFMT` of stat.h. -/
def S_IFMT : Nat := 0o170000
/-- Constant `S_IFLNK` of stat.h. -/
def S_IFLNK : Nat := 0o120000
/-- Constant `S_IFREG` of stat.h. -/
def S_IFREG : Nat := 0o100000
/-- Constant `S_IFBLK` of stat.h. -/
def S_IFBLK : Nat := 0o060000
/-- Constant `S_IFDIR` of stat.h. -/
def S_IFDIR : Nat := 0o040000
/-- Constant `S_IFCHR` of stat.h. -/
def S_IFCHR : Nat := 0o020000

/-- The inode operation tables cfs.c installs. -/
inductive inode_operations where
  | unset
  | cfs_file_inode_operations
  | cfs_link_inode_operations
  | cfs_dir_inode_operations
  deriving DecidableEq, Repr

/-- The file operation tables cfs.c installs; `special` stands for whatever
`init_special_inode` chooses for a device node. -/
inductive file_operations where
  | unset
  | cfs_file_operations
  | cfs_dir_operations
  | special
  deriving DecidableEq, Repr

/-- The fields of the kernel's `struct inode` that cfs.c reads or writes.
`i_ino` is an `unsigned long`, as is the `ino_t` parameter of
`cfs_make_inode`: 64 bits on the LP64 kernels modelled here, so that a `u64`
index is held without truncation. -/
structure inode where
  i_ino : Nat
  i_generation : Nat
  i_nlink : Nat
  i_rdev : Nat
  i_uid : Nat
  i_gid : Nat
  i_mode : Nat
  i_size : Nat
  i_atime : timespec64
  i_mtime : timespec64
  i_ctime : timespec64
  i_link : Option (List Nat)
  i_op : inode_operations
  i_fop : file_operations
  deriving DecidableEq, Repr

/-- The `struct cfs_inode` of cfs.c. -/
structure cfs_inode where
  vfs_inode : inode
  real_path : Option (List Nat)
  xattrs : Option lcfs_xattr_header_s
  dir : Option lcfs_dir_s
  has_digest : Bool
  digest : List Nat
  deriving DecidableEq, Repr

/-- The pointer a `KPtr` result leaves in a variable once `IS_ERR` has been
excluded: `none` for `NULL`. -/
def KPtr.toOption {α : Type} : KPtr α → Option α
  | .ok a => some a
  | _ => none

/-- The functions of lcfs-reader.h that cfs.c calls on the mounted image.
Their code is not among the sources, so they are parameters; the image
context `ctx` they all take is part of the parameter. -/
structure lcfs_reader where
  lcfs_dup_payload_path : lcfs_inode_s → Nat → KPtr (List Nat)
  lcfs_get_dir : lcfs_inode_s → Nat → KPtr lcfs_dir_s
  lcfs_dir_get_link_count : Option lcfs_dir_s → Nat
  lcfs_get_digest : lcfs_inode_s → Option (List Nat) → Option (List Nat)
  lcfs_get_xattrs : lcfs_inode_s → KPtr lcfs_xattr_header_s
  lcfs_get_ino_index : Nat → Except Int lcfs_inode_s
  lcfs_lookup : Option lcfs_dir_s → List Nat → Int × Nat

/-- A dentry as cfs.c sees it: the inode it is bound to, if any. -/
structure dentry where
  d_inode : Option cfs_inode
  deriving DecidableEq, Repr

/-- The kernel services cfs.c uses when it builds and looks up inodes:
`new_inode` (`none` when it returns `NULL`), whether `current_user_ns()` is
`&init_user_ns`, the id mappings, the inode cache and the dcache. -/
structure vfs_env where
  new_inode : Option cfs_inode
  in_init_user_ns : Bool
  make_kuid : Nat → Nat
  make_kgid : Nat → Nat
  ilookup : Nat → Option cfs_inode
  d_obtain_alias : cfs_inode → KPtr dentry
  d_splice_alias : KPtr cfs_inode → KPtr dentry

/-- Function `init_special_inode` of the kernel (fs/inode.c): it stores the mode and,
for a character or block device, the device number and the device file
operations. -/
def init_special_inode (i : inode) (mode rdev : Nat) : inode :=
  if mode &&& S_IFMT = S_IFCHR ∨ mode &&& S_IFMT = S_IFBLK then
    { i with i_mode := mode, i_fop := .special, i_rdev := rdev }
  else { i with i_mode := mode }

/-- The part of `cfs_make_inode` inside `if (inode) { ... }`: filling in the
new inode.  `inode_init_owner` is left out: it only stores `i_uid`, `i_gid`
and `i_mode`, all three of which are assigned again below.  The result is the
inode, or the `ret` of the `goto fail`. -/
def cfs_fill_inode (vfs : vfs_env) (cino : cfs_inode) (ino_num : Nat) (ino : lcfs_inode_s)
    (target_link real_path : Option (List Nat)) (xattrs : Option lcfs_xattr_header_s)
    (dirdata : Option lcfs_dir_s) (digest : Option (List Nat)) : Except Int cfs_inode :=
  let cino := { cino with xattrs := xattrs, dir := dirdata, has_digest := digest.isSome }
  let cino :=
    match digest with
    | some d => { cino with digest := d.take LCFS_DIGEST_SIZE }
    | none => cino
  let inode : inode :=
    { cino.vfs_inode with
      i_ino := ino_num
      i_nlink := ino.st_nlink
      i_rdev := ino.st_rdev
      i_uid := vfs.make_kuid ino.st_uid
      i_gid := vfs.make_kgid ino.st_gid
      i_mode := ino.st_mode
      i_atime := ino.st_mtim
      i_mtime := ino.st_mtim
      i_ctime := ino.st_ctim }
  if ino.st_mode &&& S_IFMT = S_IFREG then
    .ok { cino with
      vfs_inode := { inode with
        i_op := .cfs_file_inode_operations
        i_fop := .cfs_file_operations
        i_size := ino.st_size }
      real_path := real_path }
  else if ino.st_mode &&& S_IFMT = S_IFLNK then
    .ok { cino with
      vfs_inode := { inode with
        i_link := target_link
        i_op := .cfs_link_inode_operations
        i_fop := .cfs_file_operations } }
  else if ino.st_mode &&& S_IFMT = S_IFDIR then
    .ok { cino with
      vfs_inode := { inode with
        i_op := .cfs_dir_inode_operations
        i_fop := .cfs_dir_operations
        i_size := 4096 } }
  else if (ino.st_mode &&& S_IFMT = S_IFCHR ∨ ino.st_mode &&& S_IFMT = S_IFBLK) ∧
      vfs.in_init_user_ns = false then
    .error (-EPERM)
  else
    .ok { cino with
      vfs_inode := init_special_inode { inode with i_op := .cfs_file_inode_operations }
        ino.st_mode ino.st_rdev }

/-- Function `cfs_make_inode` of cfs.c.  The result is `NULL` when `new_inode` fails,
`ERR_PTR(ret)` on the `fail` path, and the new inode otherwise. -/
def cfs_make_inode (rd : lcfs_reader) (vfs : vfs_env) (ino_num : Nat) (ino : lcfs_inode_s) :
    KPtr cfs_inode :=
  match (if ino.st_mode &&& S_IFMT = S_IFLNK then rd.lcfs_dup_payload_path ino ino_num
         else .null) with
  | .err ret => .err ret
  | target_link =>
    match (if ino.st_mode &&& S_IFMT = S_IFREG ∧ ino.payload_length ≠ 0 then
             rd.lcfs_dup_payload_path ino ino_num
           else .null) with
    | .err ret => .err ret
    | real_path =>
      match (if ino.st_mode &&& S_IFMT = S_IFDIR then rd.lcfs_get_dir ino ino_num
             else .null) with
      | .err ret => .err ret
      | dirdata =>
        let ino :=
          if ino.st_mode &&& S_IFMT = S_IFDIR then
            { ino with st_nlink := rd.lcfs_dir_get_link_count dirdata.toOption }
          else ino
        let digest := rd.lcfs_get_digest ino real_path.toOption
        match rd.lcfs_get_xattrs ino with
        | .err ret => .err ret
        | xattrs =>
          match vfs.new_inode with
          | none => .null
          | some cino =>
            match cfs_fill_inode vfs cino ino_num ino target_link.toOption real_path.toOption
                xattrs.toOption dirdata.toOption digest with
            | .error ret => .err ret
            | .ok cino => .ok cino

/-! ## `kernel/cfs.c` : lookup and file handles -/

/-- Constant `NAME_MAX` of limits.h; `LCFS_MAX_NAME_LENGTH` of lcfs-internal.h has the
same value. -/
def NAME_MAX : Nat := 255

/-- Constant `LCFS_MAX_NAME_LENGTH` of lcfs-internal.h. -/
def LCFS_MAX_NAME_LENGTH : Nat := 255

/-- Constant `FILEID_INVALID` of exportfs.h. -/
def FILEID_INVALID : Int := 0xff

/-- The calls out of cfs.c that the lookup paths make, in the order made. -/
inductive cfs_call where
  | lcfs_lookup (name : List Nat)
  | lcfs_get_ino_index (index : Nat)
  | cfs_make_inode (ino_num : Nat)
  | ilookup (ino : Nat)
  | iput
  | d_add_negative
  | d_splice_alias
  | d_obtain_alias
  deriving DecidableEq, Repr

/-- What a lookup path of cfs.c does: the pointer it returns (`none` when it
dereferences a `NULL` pointer instead of returning) and the calls it made. -/
structure dentry_result where
  ret : Option (KPtr dentry)
  calls : List cfs_call
  deriving DecidableEq, Repr

/-- Function `cfs_lookup` of cfs.c, for the directory inode `dir` and the name
`dentry->d_name` (its `len` is the length of the list).  `d_add(dentry, NULL)`
is recorded as the call `d_add_negative`. -/
def cfs_lookup (rd : lcfs_reader) (vfs : vfs_env) (dir : cfs_inode) (d_name : List Nat) :
    dentry_result :=
  if d_name.length > NAME_MAX then ⟨some (.err (-ENAMETOOLONG)), []⟩
  else
    let found := rd.lcfs_lookup dir.dir d_name
    let ret := found.1
    let index := found.2
    if ret = 0 then ⟨some .null, [.lcfs_lookup d_name, .d_add_negative]⟩
    else
      match rd.lcfs_get_ino_index index with
      | .error e => ⟨some (.err e), [.lcfs_lookup d_name, .lcfs_get_ino_index index]⟩
      | .ok ino_s =>
        match cfs_make_inode rd vfs index ino_s with
        | .null =>
          ⟨some .null, [.lcfs_lookup d_name, .lcfs_get_ino_index index, .cfs_make_inode index,
            .d_add_negative]⟩
        | inode =>
          ⟨some (vfs.d_splice_alias inode),
            [.lcfs_lookup d_name, .lcfs_get_ino_index index, .cfs_make_inode index,
              .d_splice_alias]⟩

/-- What `cfs_encode_fh` hands back: the file-handle type it returns, the
words of `fh` and `*max_len` afterwards. -/
structure encode_fh_result where
  ret : Int
  fh : List Nat
  max_len : Int
  deriving DecidableEq, Repr

/-- Function `cfs_encode_fh` of cfs.c.  `fh` is the caller's array of `u32` words. -/
def cfs_encode_fh (inode : inode) (fh : List Nat) (max_len : Int) : encode_fh_result :=
  let len : Int := 3
  if max_len < len then ⟨FILEID_INVALID, fh, len⟩
  else
    let nodeid := inode.i_ino % 2 ^ 64
    let generation := inode.i_generation % 2 ^ 32
    let fh := fh.set 0 ((nodeid >>> 32) % 2 ^ 32)
    let fh := fh.set 1 ((nodeid &&& 0xffffffff) % 2 ^ 32)
    let fh := fh.set 2 generation
    ⟨0x91, fh, len⟩

/-- The decoding of the handle words in `cfs_fh_to_dentry`: `inode_index` and
`generation` from `fid->raw[0..2]`. -/
def cfs_fh_decode (raw : List Nat) : Nat × Nat :=
  let inode_index := (raw.getD 0 0 <<< 32) % 2 ^ 64
  let inode_index := inode_index ||| raw.getD 1 0
  let generation := raw.getD 2 0
  (inode_index, generation)

/-- The tail of `cfs_fh_to_dentry`, from `if (ino->i_generation != generation)`
on. -/
def cfs_fh_check_generation (vfs : vfs_env) (ino : cfs_inode) (generation : Nat)
    (calls : List cfs_call) : dentry_result :=
  if ino.vfs_inode.i_generation ≠ generation then
    ⟨some (.err (-ESTALE)), calls ++ [.iput]⟩
  else ⟨some (vfs.d_obtain_alias ino), calls ++ [.d_obtain_alias]⟩

/-- The body of `cfs_fh_to_dentry` after the handle has been decoded: the
inode cache is asked first, and on a miss the record at `inode_index` is
decoded and an inode is made from it. -/
def cfs_fh_resolve (rd : lcfs_reader) (vfs : vfs_env) (inode_index generation : Nat) :
    dentry_result :=
  match vfs.ilookup inode_index with
  | some ino => cfs_fh_check_generation vfs ino generation [.ilookup inode_index]
  | none =>
    match rd.lcfs_get_ino_index inode_index with
    | .error e => ⟨some (.err e), [.ilookup inode_index, .lcfs_get_ino_index inode_index]⟩
    | .ok inode =>
      match cfs_make_inode rd vfs inode_index inode with
      | .err e =>
        ⟨some (.err e), [.ilookup inode_index, .lcfs_get_ino_index inode_index,
          .cfs_make_inode inode_index]⟩
      | .null =>
        ⟨none, [.ilookup inode_index, .lcfs_get_ino_index inode_index,
          .cfs_make_inode inode_index]⟩
      | .ok ino =>
        cfs_fh_check_generation vfs ino generation
          [.ilookup inode_index, .lcfs_get_ino_index inode_index, .cfs_make_inode inode_index]

/-- Function `cfs_fh_to_dentry` of cfs.c, on the words `fid->raw`. -/
def cfs_fh_to_dentry (rd : lcfs_reader) (vfs : vfs_env) (raw : List Nat)
    (fh_len fh_type : Int) : dentry_result :=
  if fh_type ≠ 0x91 ∨ fh_len < 3 then ⟨some .null, []⟩
  else cfs_fh_resolve rd vfs (cfs_fh_decode raw).1 (cfs_fh_decode raw).2

/-- A reader for the examples: every record is a regular file without payload,
directories are empty, and the only name any directory holds is `a` (the byte
97), at index 7. -/
def sample_reader : lcfs_reader where
  lcfs_dup_payload_path := fun _ _ => .ok [97]
  lcfs_get_dir := fun _ _ => .ok ⟨0, [], []⟩
  lcfs_dir_get_link_count := fun _ => 2
  lcfs_get_digest := fun _ _ => none
  lcfs_get_xattrs := fun _ => .null
  lcfs_get_ino_index := fun _ =>
    .ok ⟨0, 0, S_IFREG ||| 0o644, 1, 0, 0, 0, 0, ⟨0, 0⟩, [], ⟨0, 0⟩, ⟨0, 0⟩⟩
  lcfs_lookup := fun _ name => if name = [97] then (1, 7) else (0, 0)

/-- The inode `new_inode` hands out in the examples: every field zero. -/
def blank_inode : cfs_inode :=
  ⟨⟨0, 0, 0, 0, 0, 0, 0, 0, ⟨0, 0⟩, ⟨0, 0⟩, ⟨0, 0⟩, none, .unset, .unset⟩, none, none, none,
    false, []⟩

/-- A kernel for the examples: an empty inode cache, identity id mappings,
and a dcache that binds the inode it is given. -/
def sample_vfs : vfs_env where
  new_inode := some blank_inode
  in_init_user_ns := true
  make_kuid := fun u => u
  make_kgid := fun g => g
  ilookup := fun _ => none
  d_obtain_alias := fun i => .ok ⟨some i⟩
  d_splice_alias := fun p =>
    match p with
    | .ok i => .ok ⟨some i⟩
    | .err e => .err e
    | .null => .null

/-! ## `kernel/cfs.c` : opening a file -/

/-- The two ways cfs.c opens a backing file; both are kernel functions, so
their results are parameters of the model. -/
structure open_env where
  file_open_root_mnt : List Nat → Nat → Except Int backing_file
  file_open_root : backing_file → List Nat → Nat → Except Int backing_file

/-- The outcome of `cfs_open_file`: its return value, the opened file
afterwards, and the backing files released with `fput`. -/
structure open_result where
  ret : Int
  file : Option open_file
  fput : List backing_file
  deriving DecidableEq, Repr

/-- The opening of the backing file inside `cfs_open_file` (the `if` on
`fsi->base == NULL || cino->real_path[0] == '/'`).  `real_path[0]` of an empty
path is its terminating NUL. -/
def cfs_open_real_file (env : open_env) (fsi : cfs_info) (real_path : List Nat)
    (f_flags : Nat) : Except Int backing_file :=
  match fsi.base with
  | none => env.file_open_root_mnt real_path f_flags
  | some base =>
    if real_path.getD 0 0 = 47 then env.file_open_root_mnt real_path f_flags
    else env.file_open_root base real_path f_flags

/-- Function `cfs_open_file` of cfs.c.  `file = none` is the `NULL` file of the
`WARN_ON`. -/
def cfs_open_file (env : open_env) (cino : cfs_inode) (fsi : cfs_info)
    (file : Option open_file) : open_result :=
  match file with
  | none => ⟨- EIO, none, []⟩
  | some file =>
    if file.f_flags &&& (O_WRONLY ||| O_RDWR ||| O_CREAT ||| O_EXCL ||| O_TRUNC) ≠ 0 then
      ⟨-EROFS, some file, []⟩
    else
      match cino.real_path with
      | none => ⟨0, some { file with private_data := .empty_file }, []⟩
      | some real_path =>
        match cfs_open_real_file env fsi real_path file.f_flags with
        | .error e => ⟨e, some file, []⟩
        | .ok real_file =>
          if cino.has_digest && !fsi.noverity then
            match real_file.verity_info with
            | none => ⟨- EIO, some file, [real_file]⟩
            | some verity_info =>
              if verity_info.digest_size ≠ LCFS_DIGEST_SIZE ∨
                  memcmp cino.digest verity_info.verity_digest LCFS_DIGEST_SIZE ≠ 0 then
                ⟨- EIO, some file, [real_file]⟩
              else ⟨0, some { file with private_data := .real real_file }, []⟩
          else ⟨0, some { file with private_data := .real real_file }, []⟩

/-- An opener for the examples: every path opens to a backing file whose
fs-verity digest is the 32 bytes `verity`. -/
def sample_open_env (verity : List Nat) : open_env where
  file_open_root_mnt := fun _ _ => .ok ⟨1, some ⟨verity, 32⟩⟩
  file_open_root := fun _ _ _ => .ok ⟨1, some ⟨verity, 32⟩⟩

/-- A regular-file inode for the examples: backing path `a`, and a recorded
digest of 32 zero bytes. -/
def sample_file_inode : cfs_inode :=
  { blank_inode with real_path := some [97], has_digest := true, digest := List.replicate 32 0 }

/-- A mount without base directory and with verity checking on. -/
def sample_fsi : cfs_info := ⟨none, none, none, false, false, []⟩

/-! ## `kernel/lcfs.h` : inode flags and the encoded size -/

/-- Constant `LCFS_INODE_FLAGS_NONE` of `enum lcfs_inode_flags`. -/
def LCFS_INODE_FLAGS_NONE : Nat := 0
/-- Constant `LCFS_INODE_FLAGS_PAYLOAD` of `enum lcfs_inode_flags`. -/
def LCFS_INODE_FLAGS_PAYLOAD : Nat := 1 <<< 0
/-- Constant `LCFS_INODE_FLAGS_MODE` of `enum lcfs_inode_flags`. -/
def LCFS_INODE_FLAGS_MODE : Nat := 1 <<< 1
/-- Constant `LCFS_INODE_FLAGS_NLINK` of `enum lcfs_inode_flags`. -/
def LCFS_INODE_FLAGS_NLINK : Nat := 1 <<< 2
/-- Constant `LCFS_INODE_FLAGS_UIDGID` of `enum lcfs_inode_flags`. -/
def LCFS_INODE_FLAGS_UIDGID : Nat := 1 <<< 3
/-- Constant `LCFS_INODE_FLAGS_RDEV` of `enum lcfs_inode_flags`. -/
def LCFS_INODE_FLAGS_RDEV : Nat := 1 <<< 4
/-- Constant `LCFS_INODE_FLAGS_TIMES` of `enum lcfs_inode_flags`. -/
def LCFS_INODE_FLAGS_TIMES : Nat := 1 <<< 5
/-- Constant `LCFS_INODE_FLAGS_TIMES_NSEC` of `enum lcfs_inode_flags`. -/
def LCFS_INODE_FLAGS_TIMES_NSEC : Nat := 1 <<< 6
/-- Constant `LCFS_INODE_FLAGS_LOW_SIZE` of `enum lcfs_inode_flags`. -/
def LCFS_INODE_FLAGS_LOW_SIZE : Nat := 1 <<< 7
/-- Constant `LCFS_INODE_FLAGS_HIGH_SIZE` of `enum lcfs_inode_flags`. -/
def LCFS_INODE_FLAGS_HIGH_SIZE : Nat := 1 <<< 8
/-- Constant `LCFS_INODE_FLAGS_XATTRS` of `enum lcfs_inode_flags`. -/
def LCFS_INODE_FLAGS_XATTRS : Nat := 1 <<< 9
/-- Constant `LCFS_INODE_FLAGS_DIGEST` of `enum lcfs_inode_flags`. -/
def LCFS_INODE_FLAGS_DIGEST : Nat := 1 <<< 10
/-- Constant `LCFS_INODE_FLAGS_DIGEST_FROM_PAYLOAD` of `enum lcfs_inode_flags`. -/
def LCFS_INODE_FLAGS_DIGEST_FROM_PAYLOAD : Nat := 1 <<< 11

/-- The macro `LCFS_INODE_FLAG_CHECK(_flag, _name)`, with the enumerator
`LCFS_INODE_FLAGS_##_name` passed as `name`. -/
def LCFS_INODE_FLAG_CHECK (flag name : Nat) : Bool := (flag &&& name) != 0

/-- The macro `LCFS_INODE_FLAG_CHECK_SIZE(_flag, _name, _size)`. -/
def LCFS_INODE_FLAG_CHECK_SIZE (flag name size : Nat) : Nat :=
  if LCFS_INODE_FLAG_CHECK flag name then size else 0

/-- Function `lcfs_inode_encoded_size` of lcfs.h, with `sizeof(u32) = 4` and
`sizeof(u64) = 8`; the sum is returned as a `u32`. -/
def lcfs_inode_encoded_size (flags : Nat) : Nat :=
  (4 +
    LCFS_INODE_FLAG_CHECK_SIZE flags LCFS_INODE_FLAGS_PAYLOAD 4 +
    LCFS_INODE_FLAG_CHECK_SIZE flags LCFS_INODE_FLAGS_MODE 4 +
    LCFS_INODE_FLAG_CHECK_SIZE flags LCFS_INODE_FLAGS_NLINK 4 +
    LCFS_INODE_FLAG_CHECK_SIZE flags LCFS_INODE_FLAGS_UIDGID (4 + 4) +
    LCFS_INODE_FLAG_CHECK_SIZE flags LCFS_INODE_FLAGS_RDEV 4 +
    LCFS_INODE_FLAG_CHECK_SIZE flags LCFS_INODE_FLAGS_TIMES (8 * 2) +
    LCFS_INODE_FLAG_CHECK_SIZE flags LCFS_INODE_FLAGS_TIMES_NSEC (4 * 2) +
    LCFS_INODE_FLAG_CHECK_SIZE flags LCFS_INODE_FLAGS_LOW_SIZE 4 +
    LCFS_INODE_FLAG_CHECK_SIZE flags LCFS_INODE_FLAGS_HIGH_SIZE 4 +
    LCFS_INODE_FLAG_CHECK_SIZE flags LCFS_INODE_FLAGS_XATTRS (4 * 2) +
    LCFS_INODE_FLAG_CHECK_SIZE flags LCFS_INODE_FLAGS_DIGEST LCFS_DIGEST_SIZE) % 2 ^ 32

/-- The optional fields of an encoded inode as the specification lists them:
the bit that gates the field and its width in bytes, for PAYLOAD, MODE, NLINK,
UIDGID, RDEV, TIMES, TIMES_NSEC, LOW_SIZE, HIGH_SIZE, XATTRS and DIGEST. -/
def inode_field_widths : List (Nat × Nat) :=
  [(0, 4), (1, 4), (2, 4), (3, 8), (4, 4), (5, 16), (6, 8), (7, 4), (8, 4), (9, 8), (10, 32)]

/-- The encoded size in the words of the specification: the flags word plus
the width of every optional field whose bit is set. -/
def spec_encoded_size (flags : Nat) : Nat :=
  4 + (inode_field_widths.map (fun e => if flags.testBit e.1 then e.2 else 0)).sum

/-! ## Byte order of the file format

`lcfs_uN_to_file` and `lcfs_uN_from_file` are `htoleN` / `leNtoh` of
`<endian.h>` (`cpu_to_leN` / `leN_to_cpu` in the kernel build).  Those come
from the C library and the kernel; they are modelled here by what they are
documented to do on a host of either byte order. -/

/-- The byte order of the host. -/
inductive byte_order where
  | little_endian
  | big_endian
  deriving DecidableEq, Repr

/-- The little-endian encoding of `v` in `n` bytes, lowest byte first. -/
def le_bytes : Nat → Nat → List Nat
  | 0, _ => []
  | n + 1, v => v % 256 :: le_bytes n (v / 256)

/-- The number whose little-endian encoding is the given bytes. -/
def of_le_bytes : List Nat → Nat
  | [] => 0
  | b :: bs => b + 256 * of_le_bytes bs

/-- The bytes an `n`-byte unsigned integer `v` occupies in the memory of the
host, at increasing addresses. -/
def host_bytes (host : byte_order) (n v : Nat) : List Nat :=
  match host with
  | .little_endian => le_bytes n v
  | .big_endian => (le_bytes n v).reverse

/-- Reversal of the `n` bytes of `v` (`bswap_16`, `bswap_32`, `bswap_64`). -/
def bswap (n v : Nat) : Nat := of_le_bytes (le_bytes n v).reverse

/-- Modelled from the spec: `htole16`, `htole32`, `htole64` of `<endian.h>`
(`cpu_to_le16` ... in the kernel build) are not among the sources.  The
specification fixes the file byte order as little-endian regardless of the
host, which is what these functions are documented to provide: for the width
of `n` bytes, the identity on a little-endian host and a byte swap on a
big-endian one. -/
def htole (host : byte_order) (n v : Nat) : Nat :=
  match host with
  | .little_endian => v
  | .big_endian => bswap n v

/-- Modelled from the spec: `le16toh`, `le32toh`, `le64toh` of `<endian.h>`
(`le16_to_cpu` ... in the kernel build) are not among the sources.  They are
the decoder's side of the same conversion, for the width of `n` bytes: the
identity on a little-endian host and a byte swap on a big-endian one. -/
def letoh (host : byte_order) (n v : Nat) : Nat :=
  match host with
  | .little_endian => v
  | .big_endian => bswap n v

/-- Function `lcfs_u16_to_file` of lcfs.h and lcfs-internal.h. -/
def lcfs_u16_to_file (host : byte_order) (val : Nat) : Nat := htole host 2 val
/-- Function `lcfs_u32_to_file` of lcfs.h and lcfs-internal.h. -/
def lcfs_u32_to_file (host : byte_order) (val : Nat) : Nat := htole host 4 val
/-- Function `lcfs_u64_to_file` of lcfs.h and lcfs-internal.h. -/
def lcfs_u64_to_file (host : byte_order) (val : Nat) : Nat := htole host 8 val
/-- Function `lcfs_u16_from_file` of lcfs.h and lcfs-internal.h. -/
def lcfs_u16_from_file (host : byte_order) (val : Nat) : Nat := letoh host 2 val
/-- Function `lcfs_u32_from_file` of lcfs.h and lcfs-internal.h. -/
def lcfs_u32_from_file (host : byte_order) (val : Nat) : Nat := letoh host 4 val
/-- Function `lcfs_u64_from_file` of lcfs.h and lcfs-internal.h. -/
def lcfs_u64_from_file (host : byte_order) (val : Nat) : Nat := letoh host 8 val

/-! ## `kernel/cfs.c` : the `digest=` mount option -/

/-- Function `xdigit_value` of cfs.c. -/
def xdigit_value (c : Nat) : Int :=
  if 48 ≤ c ∧ c ≤ 57 then (c : Int) - 48
  else if 65 ≤ c ∧ c ≤ 70 then (c : Int) - 65 + 10
  else if 97 ≤ c ∧ c ≤ 102 then (c : Int) - 97 + 10
  else -1

/-- The byte `s[j]` of a NUL-terminated string held as the list of the bytes
at its address: past the end of the list stands the terminating NUL. -/
def char_at (s : List Nat) (j : Nat) : Nat := s.getD j 0

/-- The C string at an address: the bytes before the first NUL. -/
def c_string (s : List Nat) : List Nat := s.takeWhile (fun c => c ≠ 0)

/-- The loop of `digest_from_string` and the check after it, with `n`
iterations still to run (`n = LCFS_DIGEST_SIZE - i`) and `j = 2 * i`. -/
def digest_from_string_loop (digest_str : List Nat) : Nat → Nat → List Nat → Int × List Nat
  | 0, i, digest =>
    if char_at digest_str (2 * i) ≠ 0 then (-EINVAL, digest) else (0, digest)
  | n + 1, i, digest =>
    let j := 2 * i
    if char_at digest_str j = 0 ∨ char_at digest_str (j + 1) = 0 then (-EINVAL, digest)
    else
      let big := xdigit_value (char_at digest_str j)
      let little := xdigit_value (char_at digest_str (j + 1))
      if big = -1 ∨ little = -1 then (-EINVAL, digest)
      else
        digest_from_string_loop digest_str n (i + 1)
          (digest.set i (((big.toNat <<< 4) ||| little.toNat) % 256))

/-- Function `digest_from_string` of cfs.c: the return value and the contents of
`digest` afterwards. -/
def digest_from_string (digest_str : List Nat) (digest : List Nat) : Int × List Nat :=
  digest_from_string_loop digest_str LCFS_DIGEST_SIZE 0 digest

/-- Constant `Opt_descriptor_file` of `enum cfs_param`. -/
def Opt_descriptor_file : Int := 0
/-- Constant `Opt_base_path` of `enum cfs_param`. -/
def Opt_base_path : Int := 1
/-- Constant `Opt_digest` of `enum cfs_param`. -/
def Opt_digest : Int := 2
/-- Constant `Opt_verity` of `enum cfs_param`. -/
def Opt_verity : Int := 3

/-- What `fs_parse` (a kernel function) makes of a parameter: the option it
returns, negative for an error, and `result.boolean`. -/
structure fs_parse_result where
  opt : Int
  boolean : Bool
  deriving DecidableEq, Repr

/-- Function `cfs_parse_param` of cfs.c: its return value, the mount state and
`param->string` afterwards.  `fs_parse` returns `Opt_digest` only for a
parameter that carries a string. -/
def cfs_parse_param (fsi : cfs_info) (parsed : fs_parse_result) (string : Option (List Nat)) :
    Int × cfs_info × Option (List Nat) :=
  let opt := parsed.opt
  if opt < 0 then (opt, fsi, string)
  else if opt = Opt_descriptor_file then
    (0, { fsi with descriptor_path := string }, none)
  else if opt = Opt_base_path then
    (0, { fsi with base_path := string }, none)
  else if opt = Opt_digest then
    let r := digest_from_string (string.getD []) fsi.digest
    if r.1 < 0 then (r.1, { fsi with digest := r.2 }, string)
    else (0, { fsi with digest := r.2, has_digest := true }, string)
  else if opt = Opt_verity then
    (0, { fsi with noverity := !parsed.boolean }, string)
  else (0, fsi, string)

/-- The 64 characters `000102...1f` of the examples, as a mount option value. -/
def sample_digest_string : List Nat :=
  [48, 48, 48, 49, 48, 50, 48, 51, 48, 52, 48, 53, 48, 54, 48, 55, 48, 56, 48, 57, 48, 97, 48, 98, 48, 99, 48, 100, 48, 101, 48, 102, 49, 48, 49, 49, 49, 50, 49, 51, 49, 52, 49, 53, 49, 54, 49, 55, 49, 56, 49, 57, 49, 97, 49, 98, 49, 99, 49, 100, 49, 101, 49, 102]

/-- Two results of opening a backing file that differ at most in the fs-verity
information of the file: the same error, or files of the same identity. -/
def same_but_verity (a b : Except Int backing_file) : Prop :=
  match a, b with
  | .ok f, .ok g => f.ident = g.ident
  | .error e, .error e' => e = e'
  | _, _ => False

/-- Two kernels whose openers differ at most in the fs-verity information of
the backing files they return. -/
def differ_only_in_verity (env₁ env₂ : open_env) : Prop :=
  (∀ path flags,
    same_but_verity (env₁.file_open_root_mnt path flags) (env₂.file_open_root_mnt path flags)) ∧
  (∀ base path flags,
    same_but_verity (env₁.file_open_root base path flags) (env₂.file_open_root base path flags))

/-- An opener for the examples whose backing files have no fs-verity
information at all. -/
def sample_open_env_plain : open_env where
  file_open_root_mnt := fun _ _ => .ok ⟨1, none⟩
  file_open_root := fun _ _ _ => .ok ⟨1, none⟩

/-! ## `kernel/lcfs.h` : the memory accesses of `lcfs_digest_from_payload` -/

/-- What a run of `lcfs_digest_from_payload` touches: the offsets from
`payload` at which it reads `*p`, the indices at which it writes `digest_out`
(the value of `n_nibbles / 2 - 1` as an integer), and the number of loop
iterations. -/
structure PayloadAccess where
  reads : List Nat
  writes : List Int
  iterations : Nat
  deriving DecidableEq, Repr

/-- The loop of `lcfs_digest_from_payload` over memory instead of a list:
`payload` gives the byte at every offset from the pointer, in or out of the
buffer, `p` is the offset `p - payload` and `todo` the distance `end - p`.
It is the same loop as `lcfs_digest_loop`, with every access recorded. -/
def lcfs_digest_walk (payload : Nat → Nat) :
    Nat → Nat → PayloadLoop → PayloadAccess → LoopExit × PayloadAccess
  | 0, _, st, acc => (.fell st, acc)
  | todo + 1, p, st, acc =>
    let acc := { acc with iterations := acc.iterations + 1, reads := acc.reads ++ [p] }
    let c := payload p
    if c = 47 then lcfs_digest_walk payload todo (p + 1) st acc
    else if c = 46 then (.fell st, acc)
    else if st.n_nibbles = LCFS_DIGEST_SIZE * 2 then (.returned (-1) st.digest_out, acc)
    else
      let digit := lcfs_xdigit_value c
      if digit = -1 then (.returned (-1) st.digest_out, acc)
      else
        let n_nibbles := st.n_nibbles + 1
        if n_nibbles % 2 = 0 then
          lcfs_digest_walk payload todo (p + 1)
            ⟨digit.toNat % 256, n_nibbles,
              st.digest_out.set (n_nibbles / 2 - 1)
                (((st.last_digit <<< 4) ||| digit.toNat) % 256)⟩
            { acc with writes := acc.writes ++ [((n_nibbles / 2 : Nat) : Int) - 1] }
        else
          lcfs_digest_walk payload todo (p + 1) ⟨digit.toNat % 256, n_nibbles, st.digest_out⟩ acc

/-! ## `kernel/cfs.c` : showing the mount options -/

/-- The bytes of a string literal of the source. -/
def ascii (s : String) : List Nat := s.toList.map Char.toNat

/-- The array `hexchars` of `digest_to_string`: the sixteen characters
`0123456789abcdef` and the terminating NUL of the literal. -/
def hexchars : List Nat := ascii "0123456789abcdef" ++ [0]

/-- The loop of `digest_to_string` and the store after it, with `n` iterations
still to run (`n = LCFS_DIGEST_SIZE - i`) and `j = 2 * i`.  `byte` is a
`uint8_t`. -/
def digest_to_string_loop (digest : List Nat) : Nat → Nat → List Nat → List Nat
  | 0, i, buf => buf.set (2 * i) 0
  | n + 1, i, buf =>
    let j := 2 * i
    let byte := digest.getD i 0 % 256
    let buf := buf.set j (hexchars.getD (byte >>> 4) 0)
    let buf := buf.set (j + 1) (hexchars.getD (byte &&& 0xF) 0)
    digest_to_string_loop digest n (i + 1) buf

/-- Function `digest_to_string` of cfs.c: the contents of `buf` afterwards. -/
def digest_to_string (digest : List Nat) (buf : List Nat) : List Nat :=
  digest_to_string_loop digest LCFS_DIGEST_SIZE 0 buf

/-- What the kernel's `seq_printf` writes for a `%s` argument: the characters
up to the NUL, and `(null)` for a `NULL` pointer. -/
def printf_s (s : Option (List Nat)) : List Nat :=
  match s with
  | none => ascii "(null)"
  | some s => c_string s

/-- Function `cfs_show_options` of cfs.c: its return value and the text it
appends to the `seq_file`.  `buf` is the content of the local array
`buf[LCFS_DIGEST_SIZE * 2 + 1]` on entry, which the source leaves
uninitialised. -/
def cfs_show_options (fsi : cfs_info) (buf : List Nat) : Int × List Nat :=
  let m := ascii ",descriptor=" ++ printf_s fsi.descriptor_path
  let m := if fsi.noverity then m ++ ascii ",noverity" else m
  let m :=
    match fsi.base_path with
    | some base_path => m ++ ascii ",basedir=" ++ printf_s (some base_path)
    | none => m
  let m :=
    if fsi.has_digest then
      m ++ ascii ",digest=" ++ printf_s (some (digest_to_string fsi.digest buf))
    else m
  (0, m)

/-- The lowercase hexadecimal digit of a nibble: `0`..`9`, `a`..`f`. -/
def lower_hex (n : Nat) : Nat := if n < 10 then 48 + n else 87 + n

/-- The text of a byte string in lowercase hexadecimal, two characters a byte,
high nibble first. -/
def hex_text : List Nat → List Nat
  | [] => []
  | b :: d => lower_hex (b / 16) :: lower_hex (b % 16) :: hex_text d

/-- Constant `DT_DIR` of the directory entry types (fs_types.h; also defined in
lcfs-fuzzing.h). -/
def DT_DIR : Nat := 4

/-- A directory for the examples: the subdirectories `a` and `c` (entry type
`DT_DIR`) and the regular file `b` (entry type 8). -/
def sample_dir : lcfs_dir_s :=
  ⟨3, [⟨5, 1, DT_DIR, 0⟩, ⟨6, 1, 8, 0⟩, ⟨7, 1, DT_DIR, 0⟩], [97, 98, 99]⟩

/-- A reader for the examples whose directories all decode to `sample_dir`, and
whose link count of a directory is 2 plus the number of its entries of type
`DT_DIR`. -/
def sample_dir_reader : lcfs_reader :=
  { sample_reader with
    lcfs_get_dir := fun _ _ => .ok sample_dir
    lcfs_dir_get_link_count := fun d =>
      match d with
      | some d => 2 + (d.dentries.filter (fun e => e.d_type = DT_DIR)).length
      | none => 2 }

/-- A directory record for the examples, with the given stored `st_nlink`. -/
def sample_dir_record (st_nlink : Nat) : lcfs_inode_s :=
  ⟨0, 0, S_IFDIR ||| 0o755, st_nlink, 0, 0, 0, 0, ⟨0, 0⟩, [], ⟨0, 0⟩, ⟨0, 0⟩⟩

/-! ## `kernel/cfs.c` : reading a directory -/

/-- One entry as it is handed to `dir_emit`: name, inode number and entry
type. -/
structure dirent where
  name : List Nat
  ino : Nat
  dtype : Nat
  deriving DecidableEq, Repr

/-- The kernel's `struct dir_context`: the cursor `pos`, and the entries its
actor has taken so far. -/
structure dir_context where
  pos : Int
  emitted : List dirent
  deriving DecidableEq, Repr

/-- The kernel's `dir_emit`: the actor of the context decides whether it takes
the entry (it refuses when the caller's buffer is full), and does not store to
`ctx->pos`.  The actor is a parameter. -/
def dir_emit (actor : dir_context → dirent → Bool) (ctx : dir_context) (e : dirent) :
    Bool × dir_context :=
  if actor ctx e then (true, { ctx with emitted := ctx.emitted ++ [e] }) else (false, ctx)

/-- Function `cfs_iterate_cb` of cfs.c: its return value and the context
afterwards. -/
def cfs_iterate_cb (actor : dir_context → dirent → Bool) (ctx : dir_context) (e : dirent) :
    Bool × dir_context :=
  let r := dir_emit actor ctx e
  let ret := r.1
  let ctx := r.2
  if ret = false then (ret, ctx)
  else (ret, { ctx with pos := ctx.pos + 1 })

/-- The kernel's `dir_emit_dots` (fs.h): at position 0 it emits `.` and moves
to 1, at position 1 it emits `..` and moves to 2; it fails when an entry is
refused. -/
def dir_emit_dots (actor : dir_context → dirent → Bool) (dot_ino dotdot_ino : Nat)
    (ctx : dir_context) : Bool × dir_context :=
  let first :=
    if ctx.pos = 0 then
      let r := dir_emit actor ctx ⟨[46], dot_ino, DT_DIR⟩
      if r.1 then (true, { r.2 with pos := 1 }) else (false, r.2)
    else (true, ctx)
  if first.1 = false then first
  else if first.2.pos = 1 then
    let r := dir_emit actor first.2 ⟨[46, 46], dotdot_ino, DT_DIR⟩
    if r.1 then (true, { r.2 with pos := 2 }) else (false, r.2)
  else first

/-- What `cfs_iterate` needs from outside: the actor of the context, the inode
numbers of the directory and of its parent, and `lcfs_dir_iterate` of
lcfs-reader.h (directory, first index, callback, context), whose code is not
among the sources. -/
structure readdir_env where
  actor : dir_context → dirent → Bool
  dot_ino : Nat
  dotdot_ino : Nat
  lcfs_dir_iterate : Option lcfs_dir_s → Int → (dir_context → dirent → Bool × dir_context) →
    dir_context → Int × dir_context

/-- The outcome of `cfs_iterate`: its return value, the context afterwards, and
the index it passed to `lcfs_dir_iterate`, if it came to call it. -/
structure iterate_result where
  ret : Int
  ctx : dir_context
  first : Option Int

/-- Function `cfs_iterate` of cfs.c, for the directory inode `cino`. -/
def cfs_iterate (env : readdir_env) (cino : cfs_inode) (ctx : dir_context) : iterate_result :=
  let dots := dir_emit_dots env.actor env.dot_ino env.dotdot_ino ctx
  if dots.1 = false then ⟨0, dots.2, none⟩
  else
    let ctx := dots.2
    let r := env.lcfs_dir_iterate cino.dir (ctx.pos - 2) (cfs_iterate_cb env.actor) ctx
    ⟨r.1, r.2, some (ctx.pos - 2)⟩

/-- Any sequence of callbacks: `cfs_iterate_cb` called on each entry of a list
in turn, whatever the earlier calls returned; the return values and the
context at the end. -/
def run_callbacks (actor : dir_context → dirent → Bool) :
    List dirent → dir_context → List Bool × dir_context
  | [], ctx => ([], ctx)
  | e :: es, ctx =>
    let r := cfs_iterate_cb actor ctx e
    let rest := run_callbacks actor es r.2
    (r.1 :: rest.1, rest.2)

/-- An actor for the examples: a buffer with room for `room` entries. -/
def sample_actor (room : Nat) : dir_context → dirent → Bool :=
  fun ctx _ => decide (ctx.emitted.length < room)

/-- A directory walker for the examples, after the words of the specification:
it hands the entries from index `first` on to the callback, in stored order,
until one is refused. -/
def sample_dir_iterate : Option lcfs_dir_s → Int →
    (dir_context → dirent → Bool × dir_context) → dir_context → Int × dir_context :=
  fun dir first cb ctx =>
    let entries := match dir with
      | some d => d.dentries.drop first.toNat
      | none => []
    (0, entries.foldl (fun (st : Bool × dir_context) e =>
        if st.1 then
          let r := cb st.2 ⟨[], e.inode_index, e.d_type⟩
          (r.1, r.2)
        else st) (true, ctx) |>.2)

/-- A readdir environment for the examples, with room for `room` entries. -/
def sample_readdir (room : Nat) : readdir_env :=
  ⟨sample_actor room, 3, 0, sample_dir_iterate⟩

/-! ## `libcomposefs/lcfs-internal.h` : alignment

The macros work on unsigned integers of one width; `w` is that width in bits
(after the integer promotions: 32 or 64), and every operation wraps. -/

/-- Addition of unsigned integers of `w` bits. -/
def uadd (w a b : Nat) : Nat := (a + b) % 2 ^ w

/-- Subtraction of unsigned integers of `w` bits. -/
def usub (w a b : Nat) : Nat := (a % 2 ^ w + (2 ^ w - b % 2 ^ w)) % 2 ^ w

/-- The complement `~a` of an unsigned integer of `w` bits. -/
def unot (w a : Nat) : Nat := 2 ^ w - 1 - a % 2 ^ w

/-- The macro `ALIGN_TO(_offset, _align_size)` of lcfs-internal.h:
`(((_offset) + _align_size - 1) & ~(_align_size - 1))`. -/
def ALIGN_TO (w _offset _align_size : Nat) : Nat :=
  (usub w (uadd w _offset _align_size) 1) &&& (unot w (usub w _align_size 1))

/-- The macro `__round_mask(x, y)` of lcfs-internal.h: `(y) - 1` converted to
the type of `x`. -/
def __round_mask (w _x y : Nat) : Nat := (usub w y 1) % 2 ^ w

/-- The macro `round_up(x, y)` of lcfs-internal.h:
`((((x) - 1) | __round_mask(x, y)) + 1)`. -/
def round_up (w x y : Nat) : Nat := uadd w ((usub w x 1) ||| (__round_mask w x y)) 1

/-- The macro `round_down(x, y)` of lcfs-internal.h:
`((x) & ~__round_mask(x, y))`. -/
def round_down (w x y : Nat) : Nat := x &&& (unot w (__round_mask w x y))

/-- The twelve flag constants of `enum lcfs_inode_flags`, in the order of the
source. -/
def lcfs_inode_flags : List Nat :=
  [LCFS_INODE_FLAGS_PAYLOAD, LCFS_INODE_FLAGS_MODE, LCFS_INODE_FLAGS_NLINK,
   LCFS_INODE_FLAGS_UIDGID, LCFS_INODE_FLAGS_RDEV, LCFS_INODE_FLAGS_TIMES,
   LCFS_INODE_FLAGS_TIMES_NSEC, LCFS_INODE_FLAGS_LOW_SIZE, LCFS_INODE_FLAGS_HIGH_SIZE,
   LCFS_INODE_FLAGS_XATTRS, LCFS_INODE_FLAGS_DIGEST, LCFS_INODE_FLAGS_DIGEST_FROM_PAYLOAD]

/-- The bitwise OR of a set of flags, given as a list, starting from
`LCFS_INODE_FLAGS_NONE`. -/
def flags_or (s : List Nat) : Nat := s.foldl (fun acc f => acc ||| f) LCFS_INODE_FLAGS_NONE

/-- A reader for the examples whose inode records differ from index to index:
the record at `index` is a regular file of size `index`. -/
def sample_indexed_reader : lcfs_reader :=
  { sample_reader with
    lcfs_get_ino_index := fun index =>
      .ok ⟨0, 0, S_IFREG ||| 0o644, 1, 0, 0, 0, index, ⟨0, 0⟩, [], ⟨0, 0⟩, ⟨0, 0⟩⟩ }

/-- The inode bound to the dentry a lookup path returned, if it returned
one. -/
def dentry_result.inode (r : dentry_result) : Option cfs_inode :=
  match r.ret with
  | some (.ok d) => d.d_inode
  | _ => none

/-! ## Theorems -/

/-! ### Hexadecimal digits -/

theorem xdigit_cases (c : Nat) :
    (is_hex c = true ∧ lcfs_xdigit_value c = (value c : Int) ∧ value c < 16) ∨
    (is_hex c = false ∧ lcfs_xdigit_value c = -1) := by
  by_cases h : c ≤ 102
  · interval_cases c <;> decide
  · right
    have h1 : hex_value c = none := by
      unfold hex_value
      rw [Option.map_eq_none', List.find?_eq_none]
      intro e he
      simp only [hex_digits, List.mem_cons, List.mem_singleton, List.not_mem_nil, or_false] at he
      rcases he with rfl | rfl | rfl | rfl | rfl | rfl | rfl | rfl | rfl | rfl | rfl | rfl | rfl |
        rfl | rfl | rfl | rfl | rfl | rfl | rfl | rfl | rfl <;> simp <;> omega
    refine ⟨by simp [is_hex, h1], ?_⟩
    unfold lcfs_xdigit_value
    rw [if_neg (by omega), if_neg (by omega), if_neg (by omega)]

theorem is_hex_not_sep {c : Nat} (h : is_hex c = true) : c ≠ 47 ∧ c ≠ 46 := by
  constructor <;> rintro rfl <;> exact absurd h (by decide)

theorem nibble_pair (a b : Nat) (ha : a < 16) (hb : b < 16) :
    ((a <<< 4) ||| b) % 256 = 16 * a + b := by
  interval_cases a <;> interval_cases b <;> rfl

/-! ### The digits of a payload -/

theorem payload_digits_nil : payload_digits [] = [] := rfl

theorem payload_digits_slash (r : List Nat) : payload_digits (47 :: r) = payload_digits r := by
  simp [payload_digits, List.takeWhile_cons]

theorem payload_digits_dot (r : List Nat) : payload_digits (46 :: r) = [] := by
  simp [payload_digits, List.takeWhile_cons]

theorem payload_digits_cons {c : Nat} (r : List Nat) (h1 : c ≠ 47) (h2 : c ≠ 46) :
    payload_digits (c :: r) = c :: payload_digits r := by
  simp [payload_digits, List.takeWhile_cons, h1, h2]

/-! ### The loop of `lcfs_digest_from_payload` -/

theorem loop_slash (r : List Nat) (st : PayloadLoop) :
    lcfs_digest_loop (47 :: r) st = lcfs_digest_loop r st := by
  simp [lcfs_digest_loop]

theorem loop_dot (r : List Nat) (st : PayloadLoop) :
    lcfs_digest_loop (46 :: r) st = .fell st := by
  simp [lcfs_digest_loop]

theorem loop_full {c : Nat} (r : List Nat) (st : PayloadLoop) (h1 : c ≠ 47) (h2 : c ≠ 46)
    (hn : st.n_nibbles = 64) :
    lcfs_digest_loop (c :: r) st = .returned (-1) st.digest_out := by
  simp [lcfs_digest_loop, h1, h2, hn, LCFS_DIGEST_SIZE]

theorem loop_nonhex {c : Nat} (r : List Nat) (st : PayloadLoop) (h1 : c ≠ 47) (h2 : c ≠ 46)
    (hc : is_hex c = false) :
    lcfs_digest_loop (c :: r) st = .returned (-1) st.digest_out := by
  have hx : lcfs_xdigit_value c = -1 := by
    rcases xdigit_cases c with ⟨h, _⟩ | ⟨_, h⟩
    · rw [hc] at h; exact absurd h (by decide)
    · exact h
  simp [lcfs_digest_loop, h1, h2, hx]

theorem loop_hex {c : Nat} (r : List Nat) (st : PayloadLoop) (hc : is_hex c = true)
    (hn : st.n_nibbles ≠ 64) :
    lcfs_digest_loop (c :: r) st =
      lcfs_digest_loop r ⟨value c, st.n_nibbles + 1,
        if (st.n_nibbles + 1) % 2 = 0 then
          st.digest_out.set ((st.n_nibbles + 1) / 2 - 1) (((st.last_digit <<< 4) ||| value c) % 256)
        else st.digest_out⟩ := by
  obtain ⟨h1, h2⟩ := is_hex_not_sep hc
  have hx : lcfs_xdigit_value c = (value c : Int) ∧ value c < 16 := by
    rcases xdigit_cases c with ⟨_, h⟩ | ⟨h, _⟩
    · exact h
    · rw [hc] at h; exact absurd h (by decide)
  have hne : ¬ ((value c : Int) = -1) := by omega
  have hmod : value c % 256 = value c := Nat.mod_eq_of_lt (by omega)
  rw [lcfs_digest_loop, if_neg h1, if_neg h2, if_neg (by simpa [LCFS_DIGEST_SIZE] using hn)]
  simp only [hx.1, hne, if_false, Int.toNat_ofNat, hmod]

theorem finish_ret_cases (e : LoopExit) (h : ∀ r out, e = .returned r out → r = -1) :
    (lcfs_digest_finish e).ret = 0 ∨ (lcfs_digest_finish e).ret = -1 := by
  cases e with
  | returned r out => right; simpa [lcfs_digest_finish] using h r out rfl
  | fell st =>
    by_cases hn : st.n_nibbles = LCFS_DIGEST_SIZE * 2 <;> simp [lcfs_digest_finish, hn]

theorem loop_returned (p : List Nat) (st : PayloadLoop) (r : Int) (out : List Nat)
    (h : lcfs_digest_loop p st = .returned r out) : r = -1 := by
  induction p generalizing st with
  | nil => simp [lcfs_digest_loop] at h
  | cons c rest ih =>
    by_cases h1 : c = 47
    · subst h1; rw [loop_slash] at h; exact ih st h
    by_cases h2 : c = 46
    · subst h2; rw [loop_dot] at h; exact absurd h (by simp)
    by_cases hn : st.n_nibbles = 64
    · rw [loop_full rest st h1 h2 hn] at h; injection h with h _; exact h.symm
    cases hc : is_hex c with
    | false => rw [loop_nonhex rest st h1 h2 hc] at h; injection h with h _; exact h.symm
    | true => rw [loop_hex rest st hc hn] at h; exact ih _ h

theorem loop_ret_zero_iff (p : List Nat) (st : PayloadLoop) (hst : st.n_nibbles ≤ 64) :
    (lcfs_digest_finish (lcfs_digest_loop p st)).ret = 0 ↔
      st.n_nibbles + (payload_digits p).length = 64 ∧ ∀ c ∈ payload_digits p, is_hex c = true := by
  induction p generalizing st with
  | nil =>
    by_cases hn : st.n_nibbles = 64 <;>
      simp [lcfs_digest_loop, lcfs_digest_finish, payload_digits, LCFS_DIGEST_SIZE, hn]
  | cons c rest ih =>
    by_cases h1 : c = 47
    · subst h1; rw [loop_slash, payload_digits_slash]; exact ih st hst
    by_cases h2 : c = 46
    · subst h2; rw [loop_dot, payload_digits_dot]
      by_cases hn : st.n_nibbles = 64 <;> simp [lcfs_digest_finish, LCFS_DIGEST_SIZE, hn]
    rw [payload_digits_cons rest h1 h2]
    by_cases hn : st.n_nibbles = 64
    · rw [loop_full rest st h1 h2 hn]
      simp only [lcfs_digest_finish, List.length_cons]
      constructor
      · intro h; exact absurd h (by decide)
      · rintro ⟨h, _⟩; omega
    cases hc : is_hex c with
    | false =>
      rw [loop_nonhex rest st h1 h2 hc]
      simp only [lcfs_digest_finish]
      constructor
      · intro h; exact absurd h (by decide)
      · rintro ⟨_, h⟩
        have := h c (List.mem_cons_self _ _)
        rw [hc] at this; exact absurd this (by decide)
    | true =>
      rw [loop_hex rest st hc hn, ih _ (by show st.n_nibbles + 1 ≤ 64; omega)]
      simp only [List.length_cons, List.mem_cons, forall_eq_or_imp, hc, true_and]
      constructor
      · rintro ⟨h, h'⟩; exact ⟨by omega, h'⟩
      · rintro ⟨h, h'⟩; exact ⟨by omega, h'⟩

theorem loop_filter (p : List Nat) (st : PayloadLoop) :
    lcfs_digest_loop p st = lcfs_digest_loop (p.filter (fun c => c ≠ 47)) st := by
  induction p generalizing st with
  | nil => rfl
  | cons c rest ih =>
    by_cases h1 : c = 47
    · subst h1; rw [loop_slash, ih]; simp
    · have hf : (c :: rest).filter (fun c => c ≠ 47) = c :: rest.filter (fun c => c ≠ 47) := by
        simp [h1]
      rw [hf]
      by_cases h2 : c = 46
      · subst h2; rw [loop_dot, loop_dot]
      by_cases hn : st.n_nibbles = 64
      · rw [loop_full _ st h1 h2 hn, loop_full _ st h1 h2 hn]
      cases hc : is_hex c with
      | false => rw [loop_nonhex _ st h1 h2 hc, loop_nonhex _ st h1 h2 hc]
      | true => rw [loop_hex _ st hc hn, loop_hex _ st hc hn, ih]

theorem loop_takeWhile (p : List Nat) (st : PayloadLoop) :
    lcfs_digest_loop p st = lcfs_digest_loop (p.takeWhile (fun c => c ≠ 46)) st := by
  induction p generalizing st with
  | nil => rfl
  | cons c rest ih =>
    by_cases h2 : c = 46
    · subst h2; rw [loop_dot]; simp [List.takeWhile_cons, lcfs_digest_loop]
    · have hf : (c :: rest).takeWhile (fun c => c ≠ 46) =
          c :: rest.takeWhile (fun c => c ≠ 46) := by
        simp [List.takeWhile_cons, h2]
      rw [hf]
      by_cases h1 : c = 47
      · subst h1; rw [loop_slash, loop_slash, ih]
      by_cases hn : st.n_nibbles = 64
      · rw [loop_full _ st h1 h2 hn, loop_full _ st h1 h2 hn]
      cases hc : is_hex c with
      | false => rw [loop_nonhex _ st h1 h2 hc, loop_nonhex _ st h1 h2 hc]
      | true => rw [loop_hex _ st hc hn, loop_hex _ st hc hn, ih]

theorem loop_digits (p : List Nat) (st : PayloadLoop) :
    lcfs_digest_loop p st = lcfs_digest_loop (payload_digits p) st := by
  unfold payload_digits
  rw [← loop_filter, ← loop_takeWhile]

theorem decode_pairs_length : ∀ ds : List Nat, (decode_pairs ds).length = ds.length / 2
  | [] => rfl
  | [_] => by simp [decode_pairs]
  | _ :: _ :: rest => by
    simp only [decode_pairs, List.length_cons, decode_pairs_length rest]
    omega

theorem decode_pairs_get : ∀ (ds : List Nat) (i : Nat), 2 * i + 1 < ds.length →
    (decode_pairs ds)[i]? =
      some (16 * value (ds.getD (2 * i) 0) + value (ds.getD (2 * i + 1) 0))
  | [], _, h => by simp at h
  | [_], _, h => by simp at h
  | a :: b :: rest, 0, _ => by simp [decode_pairs]
  | a :: b :: rest, i + 1, h => by
    have h' : 2 * i + 1 < rest.length := by simp only [List.length_cons] at h; omega
    have e1 : 2 * (i + 1) = (2 * i) + 1 + 1 := by omega
    have e2 : 2 * (i + 1) + 1 = (2 * i + 1) + 1 + 1 := by omega
    rw [e2, e1]
    simp only [decode_pairs, List.getElem?_cons_succ, List.getD_cons_succ]
    exact decode_pairs_get rest i h'

theorem loop_pairs : ∀ (ds pre buf : List Nat) (last : Nat),
    (∀ c ∈ ds, is_hex c = true) → ds.length % 2 = 0 →
    2 * pre.length + ds.length ≤ 64 → ds.length / 2 ≤ buf.length →
    ∃ last', lcfs_digest_loop ds ⟨last, 2 * pre.length, pre ++ buf⟩ =
      .fell ⟨last', 2 * pre.length + ds.length,
        pre ++ decode_pairs ds ++ buf.drop (ds.length / 2)⟩
  | [], pre, buf, last, _, _, _, _ => ⟨last, by simp [lcfs_digest_loop, decode_pairs]⟩
  | [_], _, _, _, _, h, _, _ => by simp at h
  | a :: b :: rest, pre, buf, last, hhex, hev, hle, hbuf => by
    have ha : is_hex a = true := hhex a (by simp)
    have hb : is_hex b = true := hhex b (by simp)
    have hva : value a < 16 := by
      rcases xdigit_cases a with ⟨_, _, h⟩ | ⟨h, _⟩
      · exact h
      · rw [ha] at h; exact absurd h (by decide)
    have hvb : value b < 16 := by
      rcases xdigit_cases b with ⟨_, _, h⟩ | ⟨h, _⟩
      · exact h
      · rw [hb] at h; exact absurd h (by decide)
    simp only [List.length_cons] at hle hbuf hev
    obtain ⟨x, buf', rfl⟩ : ∃ x buf', buf = x :: buf' := by
      cases buf with
      | nil => simp at hbuf; omega
      | cons x buf' => exact ⟨x, buf', rfl⟩
    rw [loop_hex _ _ ha (by show 2 * pre.length ≠ 64; omega)]
    rw [loop_hex _ _ hb (by show 2 * pre.length + 1 ≠ 64; omega)]
    have o1 : ¬ ((2 * pre.length + 1) % 2 = 0) := by omega
    have o2 : (2 * pre.length + 1 + 1) % 2 = 0 := by omega
    have o3 : (2 * pre.length + 1 + 1) / 2 - 1 = pre.length := by omega
    simp only [o1, o2, o3, if_true, if_false, nibble_pair _ _ hva hvb]
    have hset : (pre ++ x :: buf').set pre.length (16 * value a + value b) =
        (pre ++ [16 * value a + value b]) ++ buf' := by
      simp [List.set_append]
    have hlen : 2 * pre.length + 1 + 1 = 2 * (pre ++ [16 * value a + value b]).length := by
      simp only [List.length_append, List.length_singleton]; omega
    rw [hset, hlen]
    obtain ⟨last', h⟩ := loop_pairs rest (pre ++ [16 * value a + value b]) buf' (value b)
      (fun c hc => hhex c (by simp [hc])) (by omega)
      (by simp only [List.length_append, List.length_singleton]; omega)
      (by simp only [List.length_cons] at hbuf; omega)
    refine ⟨last', ?_⟩
    rw [h]
    have hd : (rest.length + 1 + 1) / 2 = rest.length / 2 + 1 := by omega
    simp only [List.length_append, List.length_singleton, List.length_cons, decode_pairs, hd,
      List.drop_succ_cons, List.append_assoc, List.singleton_append]
    congr 2
    simp only [List.length_nil]
    omega

theorem payload_success (p out : List Nat) (hout : out.length = 32)
    (hlen : (payload_digits p).length = 64) (hhex : ∀ c ∈ payload_digits p, is_hex c = true) :
    lcfs_digest_from_payload p out = ⟨0, decode_pairs (payload_digits p)⟩ := by
  unfold lcfs_digest_from_payload
  rw [loop_digits]
  obtain ⟨last', h⟩ := loop_pairs (payload_digits p) [] out 0 hhex (by omega)
    (by simp only [List.length_nil]; omega) (by omega)
  simp only [List.length_nil, Nat.mul_zero, List.nil_append, Nat.zero_add] at h
  rw [h, hlen]
  have hdrop : out.drop (64 / 2) = [] := by
    apply List.drop_eq_nil_of_le; omega
  simp [lcfs_digest_finish, LCFS_DIGEST_SIZE, hdrop]

theorem payload_ret_cases (p out : List Nat) :
    (lcfs_digest_from_payload p out).ret = 0 ∨ (lcfs_digest_from_payload p out).ret = -1 :=
  finish_ret_cases _ (fun r o h => loop_returned p _ r o h)

theorem payload_ret_zero_iff (p out : List Nat) :
    (lcfs_digest_from_payload p out).ret = 0 ↔
      (payload_digits p).length = 64 ∧ ∀ c ∈ payload_digits p, is_hex c = true := by
  unfold lcfs_digest_from_payload
  rw [loop_ret_zero_iff p _ (by show 0 ≤ 64; omega)]
  simp

theorem payload_ret_buffer (p out₁ out₂ : List Nat) :
    (lcfs_digest_from_payload p out₁).ret = (lcfs_digest_from_payload p out₂).ret := by
  by_cases h : (lcfs_digest_from_payload p out₁).ret = 0
  · rw [h, ((payload_ret_zero_iff p out₂).2 ((payload_ret_zero_iff p out₁).1 h))]
  · have h2 : ¬ (lcfs_digest_from_payload p out₂).ret = 0 :=
      fun h2 => h ((payload_ret_zero_iff p out₁).2 ((payload_ret_zero_iff p out₂).1 h2))
    rcases payload_ret_cases p out₁ with h1 | h1
    · exact absurd h1 h
    · rcases payload_ret_cases p out₂ with h3 | h3
      · exact absurd h3 h2
      · rw [h1, h3]

theorem payload_filter (p out : List Nat) :
    lcfs_digest_from_payload p out =
      lcfs_digest_from_payload (p.filter (fun c => c ≠ 47)) out := by
  unfold lcfs_digest_from_payload
  rw [← loop_filter]

/-! ### Claims on `lcfs_digest_from_payload` -/

/-- C1: when the characters of the payload before its first `'.'`, with every
`'/'` removed, are exactly 64 hexadecimal digits `h0..h63`, then
`lcfs_digest_from_payload` returns 0 and leaves
`digest_out[i] = 16 * value(h(2i)) + value(h(2i+1))` for every `i` in `0..31`. -/
theorem digest_from_payload_decodes (p out : List Nat) (hout : out.length = 32)
    (hlen : (payload_digits p).length = 64)
    (hhex : ∀ c ∈ payload_digits p, is_hex c = true) :
    (lcfs_digest_from_payload p out).ret = 0 ∧
    (lcfs_digest_from_payload p out).digest_out.length = 32 ∧
    ∀ i, i < 32 → (lcfs_digest_from_payload p out).digest_out[i]? =
      some (16 * value ((payload_digits p).getD (2 * i) 0) +
        value ((payload_digits p).getD (2 * i + 1) 0)) := by
  rw [payload_success p out hout hlen hhex]
  refine ⟨rfl, ?_, ?_⟩
  · show (decode_pairs (payload_digits p)).length = 32
    rw [decode_pairs_length, hlen]
  · intro i hi
    exact decode_pairs_get _ i (by omega)

/-- Witness for C1: the sample payload decodes; its first byte is `0x5f` and
its last byte `0x9d`. -/
theorem digest_from_payload_decodes_witness :
    (List.replicate 32 0).length = 32 ∧ (payload_digits sample_payload).length = 64 ∧
    (lcfs_digest_from_payload sample_payload (List.replicate 32 0)).ret = 0 ∧
    (lcfs_digest_from_payload sample_payload (List.replicate 32 0)).digest_out[0]? = some 95 ∧
    (lcfs_digest_from_payload sample_payload (List.replicate 32 0)).digest_out[31]? = some 157 := by
  have h := digest_from_payload_decodes sample_payload (List.replicate 32 0)
    (by decide) (by decide) (by decide)
  exact ⟨by decide, by decide, h.1, by decide, by decide⟩

/-- C2: `lcfs_digest_from_payload` returns only 0 or -1, and it returns -1
exactly when the digits of the payload (the characters before the first `'.'`
that are not `'/'`) are not 64 in number or one of them is not hexadecimal; so
a payload with 63 or with 65 digits is rejected. -/
theorem digest_from_payload_fails_iff (p out : List Nat) :
    ((lcfs_digest_from_payload p out).ret = 0 ∨ (lcfs_digest_from_payload p out).ret = -1) ∧
    ((lcfs_digest_from_payload p out).ret = -1 ↔
      ((payload_digits p).length ≠ 64 ∨ ∃ c ∈ payload_digits p, is_hex c = false)) ∧
    ((payload_digits p).length = 63 ∨ (payload_digits p).length = 65 →
      (lcfs_digest_from_payload p out).ret = -1) := by
  have hc := payload_ret_cases p out
  have hz := payload_ret_zero_iff p out
  have key : (lcfs_digest_from_payload p out).ret = -1 ↔
      ((payload_digits p).length ≠ 64 ∨ ∃ c ∈ payload_digits p, is_hex c = false) := by
    constructor
    · intro h
      have hnz : ¬ ((payload_digits p).length = 64 ∧ ∀ c ∈ payload_digits p, is_hex c = true) :=
        fun h' => by rw [hz.2 h'] at h; exact absurd h (by decide)
      by_cases hl : (payload_digits p).length = 64
      · right
        by_contra hne
        apply hnz
        refine ⟨hl, fun c hcm => ?_⟩
        cases hx : is_hex c with
        | true => rfl
        | false => exact absurd ⟨c, hcm, hx⟩ hne
      · exact Or.inl hl
    · intro h
      rcases hc with h0 | h1
      · obtain ⟨hl, hh⟩ := hz.1 h0
        rcases h with h | ⟨c, hcm, hx⟩
        · exact absurd hl h
        · rw [hh c hcm] at hx; exact absurd hx (by decide)
      · exact h1
  refine ⟨hc, key, fun h => key.2 (Or.inl ?_)⟩
  rcases h with h | h <;> omega

/-- Witness for C2: the sample digits without the last one (63 digits) and
with one more (65 digits) are rejected with -1, and so is a payload whose only
fault is the letter `g`. -/
theorem digest_from_payload_fails_iff_witness :
    (lcfs_digest_from_payload sample_payload_split.dropLast (List.replicate 32 0)).ret = -1 ∧
    (lcfs_digest_from_payload (sample_payload_split ++ [48]) (List.replicate 32 0)).ret = -1 ∧
    (lcfs_digest_from_payload (103 :: sample_payload_split.tail) (List.replicate 32 0)).ret
      = -1 :=
  ⟨(digest_from_payload_fails_iff sample_payload_split.dropLast (List.replicate 32 0)).2.2
      (Or.inl (by decide)),
    (digest_from_payload_fails_iff (sample_payload_split ++ [48]) (List.replicate 32 0)).2.2
      (Or.inr (by decide)),
    (digest_from_payload_fails_iff (103 :: sample_payload_split.tail)
      (List.replicate 32 0)).2.1.2 (Or.inr ⟨103, by decide, by decide⟩)⟩

/-- C4: path separators are ignored.  Two payloads that are the same string
once every `'/'` is deleted give the same result on the same buffer, the same
return code on any two buffers, and on success the same 32 output bytes. -/
theorem digest_from_payload_ignores_slashes (p q out₁ out₂ : List Nat)
    (hpq : p.filter (fun c => c ≠ 47) = q.filter (fun c => c ≠ 47))
    (h₁ : out₁.length = 32) (h₂ : out₂.length = 32) :
    lcfs_digest_from_payload p out₁ = lcfs_digest_from_payload q out₁ ∧
    (lcfs_digest_from_payload p out₁).ret = (lcfs_digest_from_payload q out₂).ret ∧
    ((lcfs_digest_from_payload p out₁).ret = 0 →
      (lcfs_digest_from_payload p out₁).digest_out =
        (lcfs_digest_from_payload q out₂).digest_out) := by
  have e : lcfs_digest_from_payload p out₁ = lcfs_digest_from_payload q out₁ := by
    rw [payload_filter p, payload_filter q, hpq]
  refine ⟨e, ?_, ?_⟩
  · rw [e]; exact payload_ret_buffer q out₁ out₂
  · intro h0
    rw [e] at h0 ⊢
    obtain ⟨hl, hh⟩ := (payload_ret_zero_iff q out₁).1 h0
    rw [payload_success q out₁ h₁ hl hh, payload_success q out₂ h₂ hl hh]

/-- Witness for C4: the sample payload and its variant with another separator
and no extension, decoded into buffers with different previous contents. -/
theorem digest_from_payload_ignores_slashes_witness :
    (lcfs_digest_from_payload sample_payload_split (List.replicate 32 0)).ret = 0 ∧
    (lcfs_digest_from_payload (47 :: 47 :: sample_payload_split) (List.replicate 32 255)).ret
      = 0 ∧
    (lcfs_digest_from_payload sample_payload_split (List.replicate 32 0)).digest_out =
      (lcfs_digest_from_payload (47 :: 47 :: sample_payload_split)
        (List.replicate 32 255)).digest_out := by
  have h := digest_from_payload_ignores_slashes sample_payload_split
    (47 :: 47 :: sample_payload_split) (List.replicate 32 0) (List.replicate 32 255)
    (by decide) (by decide) (by decide)
  have h0 : (lcfs_digest_from_payload sample_payload_split (List.replicate 32 0)).ret = 0 := by
    decide
  exact ⟨h0, h.2.1 ▸ h0, h.2.2 h0⟩

/-- C5: the extension is ignored.  The result for a payload is the result for
its prefix that ends just before the first `'.'`, so two payloads that agree
up to their first `'.'` give the same return code and the same buffer. -/
theorem digest_from_payload_ignores_extension (p q out : List Nat)
    (hpq : p.takeWhile (fun c => c ≠ 46) = q.takeWhile (fun c => c ≠ 46)) :
    lcfs_digest_from_payload p out =
      lcfs_digest_from_payload (p.takeWhile (fun c => c ≠ 46)) out ∧
    lcfs_digest_from_payload p out = lcfs_digest_from_payload q out := by
  have e : ∀ r : List Nat, lcfs_digest_from_payload r out =
      lcfs_digest_from_payload (r.takeWhile (fun c => c ≠ 46)) out := by
    intro r
    unfold lcfs_digest_from_payload
    rw [← loop_takeWhile]
  exact ⟨e p, by rw [e p, e q, hpq]⟩

/-- Witness for C5: the sample payload with its extension `.file` and with the
tail `.0/x.` give the same result. -/
theorem digest_from_payload_ignores_extension_witness :
    lcfs_digest_from_payload sample_payload (List.replicate 32 0) =
      lcfs_digest_from_payload (sample_payload.takeWhile (fun c => c ≠ 46))
        (List.replicate 32 0) ∧
    lcfs_digest_from_payload sample_payload (List.replicate 32 0) =
      lcfs_digest_from_payload
        (sample_payload.takeWhile (fun c => c ≠ 46) ++ [46, 48, 47, 120, 46])
        (List.replicate 32 0) :=
  digest_from_payload_ignores_extension sample_payload
    (sample_payload.takeWhile (fun c => c ≠ 46) ++ [46, 48, 47, 120, 46])
    (List.replicate 32 0) (by decide)

/-! ### `cfs_open_file` -/

theorem memcmp_eq_zero_iff : ∀ (a b : List Nat) (n : Nat), n ≤ a.length → n ≤ b.length →
    (memcmp a b n = 0 ↔ a.take n = b.take n)
  | _, _, 0, _, _ => by simp [memcmp]
  | [], _, n + 1, h, _ => by simp at h
  | _ :: _, [], n + 1, _, h => by simp at h
  | x :: as, y :: bs, n + 1, ha, hb => by
    have ih := memcmp_eq_zero_iff as bs n (by simpa using ha) (by simpa using hb)
    simp only [memcmp, List.take_succ_cons, List.cons.injEq]
    by_cases h1 : x < y
    · simp only [h1, if_true]
      constructor
      · intro h; exact absurd h (by decide)
      · rintro ⟨h, _⟩; omega
    by_cases h2 : y < x
    · simp only [h1, h2, if_true, if_false]
      constructor
      · intro h; exact absurd h (by decide)
      · rintro ⟨h, _⟩; omega
    simp only [h1, h2, if_false, ih]
    constructor
    · intro h; exact ⟨by omega, h⟩
    · rintro ⟨_, h⟩; exact h

/-- C3: a read-only open of an inode that has a backing path whose file opens,
with a digest recorded and verity checking on, succeeds exactly when the
backing file has fs-verity info of digest size 32 whose 32 bytes are the
inode's stored digest; it then installs the backing file as `private_data`.
In every other case it returns `-EIO`, leaves `private_data` as it was and
releases the backing file. -/
theorem open_file_checks_digest (env : open_env) (cino : cfs_inode) (fsi : cfs_info)
    (file : open_file) (real_path : List Nat) (real_file : backing_file)
    (hro : file.f_flags &&& (O_WRONLY ||| O_RDWR ||| O_CREAT ||| O_EXCL ||| O_TRUNC) = 0)
    (hpath : cino.real_path = some real_path)
    (hopen : cfs_open_real_file env fsi real_path file.f_flags = .ok real_file)
    (hdig : cino.has_digest = true) (hver : fsi.noverity = false)
    (hlen : cino.digest.length = 32)
    (hbuf : ∀ vi, real_file.verity_info = some vi → vi.digest_size ≤ vi.verity_digest.length) :
    ((cfs_open_file env cino fsi (some file)).ret = 0 ↔
      ∃ vi, real_file.verity_info = some vi ∧ vi.digest_size = 32 ∧
        vi.verity_digest.take 32 = cino.digest) ∧
    ((cfs_open_file env cino fsi (some file)).ret = 0 →
      cfs_open_file env cino fsi (some file) =
        ⟨0, some { file with private_data := .real real_file }, []⟩) ∧
    ((cfs_open_file env cino fsi (some file)).ret ≠ 0 →
      cfs_open_file env cino fsi (some file) = ⟨- EIO, some file, [real_file]⟩) := by
  have hro' : ¬ (file.f_flags &&& (O_WRONLY ||| O_RDWR ||| O_CREAT ||| O_EXCL ||| O_TRUNC) ≠ 0) :=
    fun h => h hro
  simp only [cfs_open_file, if_neg hro', hpath, hopen, hdig, hver, Bool.not_false, Bool.and_self,
    if_true]
  cases hvi : real_file.verity_info with
  | none => simp [ EIO]
  | some vi =>
    have hb := hbuf vi hvi
    by_cases hs : vi.digest_size = 32
    · have hm := memcmp_eq_zero_iff cino.digest vi.verity_digest 32 (by omega) (by omega)
      have ht : cino.digest.take 32 = cino.digest := List.take_of_length_le (by omega)
      rw [ht] at hm
      by_cases he : vi.verity_digest.take 32 = cino.digest
      · have hz : memcmp cino.digest vi.verity_digest 32 = 0 := hm.2 he.symm
        simp [LCFS_DIGEST_SIZE, hs, hz, he]
      · have hz : ¬ memcmp cino.digest vi.verity_digest 32 = 0 := fun h => he (hm.1 h).symm
        simp [LCFS_DIGEST_SIZE, hs, hz, he, EIO]
    · simp [LCFS_DIGEST_SIZE, hs, EIO]

/-- Witness for C3: an inode whose stored digest is all zero, opened read-only
over a backing file whose fs-verity digest is all zero, is opened; over a
backing file with another digest the open is refused with `-EIO`. -/
theorem open_file_checks_digest_witness :
    (cfs_open_file (sample_open_env (List.replicate 32 0))
      sample_file_inode sample_fsi (some ⟨0, .unset⟩)).ret = 0 ∧
    cfs_open_file (sample_open_env (1 :: List.replicate 31 0))
      sample_file_inode sample_fsi (some ⟨0, .unset⟩) =
      ⟨- EIO, some ⟨0, .unset⟩, [⟨1, some ⟨1 :: List.replicate 31 0, 32⟩⟩]⟩ := by
  have h := open_file_checks_digest (sample_open_env (List.replicate 32 0))
    sample_file_inode sample_fsi ⟨0, .unset⟩ [97]
    ⟨1, some ⟨List.replicate 32 0, 32⟩⟩ (by decide) rfl rfl rfl rfl (by decide)
    (by intro vi hvi; cases hvi; decide)
  exact ⟨h.1.2 ⟨⟨List.replicate 32 0, 32⟩, rfl, rfl, by decide⟩, by decide⟩

/-! ### File handles -/

theorem fh_words (k : Nat) (hk : k < 2 ^ 64) :
    ((((k >>> 32) % 2 ^ 32) <<< 32) % 2 ^ 64) ||| ((k &&& 0xffffffff) % 2 ^ 32) = k := by
  have hmask : (0xffffffff : Nat) = 2 ^ 32 - 1 := by norm_num
  rw [hmask, Nat.and_pow_two_sub_one_eq_mod, Nat.shiftRight_eq_div_pow, Nat.shiftLeft_eq,
    Nat.mod_mod]
  have h1 : k / 2 ^ 32 < 2 ^ 32 := by omega
  rw [Nat.mod_eq_of_lt h1, Nat.mod_eq_of_lt (by omega : k / 2 ^ 32 * 2 ^ 32 < 2 ^ 64),
    Nat.mul_comm, ← Nat.mul_add_lt_is_or (Nat.mod_lt _ (by norm_num))]
  omega

theorem fill_inode_ino (vfs : vfs_env) (c : cfs_inode) (ino_num : Nat) (ino : lcfs_inode_s)
    (tl rp : Option (List Nat)) (xa : Option lcfs_xattr_header_s) (dd : Option lcfs_dir_s)
    (dg : Option (List Nat)) (cino : cfs_inode)
    (h : cfs_fill_inode vfs c ino_num ino tl rp xa dd dg = .ok cino) :
    cino.vfs_inode.i_ino = ino_num := by
  unfold cfs_fill_inode at h
  simp only at h
  split_ifs at h <;> first
    | (injection h with h; subst h; rfl)
    | (injection h with h; subst h; simp only [init_special_inode]; split_ifs <;> rfl)

theorem make_inode_ino (rd : lcfs_reader) (vfs : vfs_env) (ino_num : Nat) (ino : lcfs_inode_s)
    (cino : cfs_inode) (h : cfs_make_inode rd vfs ino_num ino = .ok cino) :
    cino.vfs_inode.i_ino = ino_num := by
  unfold cfs_make_inode at h
  split at h
  · exact absurd h (by simp)
  split at h
  · exact absurd h (by simp)
  split at h
  · exact absurd h (by simp)
  simp only at h
  split at h
  · exact absurd h (by simp)
  split at h
  · exact absurd h (by simp)
  split at h
  · exact absurd h (by simp)
  · rename_i hfill
    injection h with h
    subst h
    exact fill_inode_ino _ _ _ _ _ _ _ _ _ _ hfill

/-- C6: file handles round-trip the inode index.  For an inode with a 64-bit
`i_ino` and a 32-bit `i_generation`, `cfs_encode_fh` with room for three words
returns type `0x91` and sets `*max_len = 3`; `cfs_fh_to_dentry` decodes the
words it wrote back to the same index and generation and resolves that index:
what it returns is decided by `ilookup` at that index and, on a miss in the
inode cache, by the record `lcfs_get_ino_index` gives at that index and the
inode `cfs_make_inode` makes from it under that index (an error of either is
passed on, a generation other than the encoded one gives `-ESTALE`, and
otherwise the dentry is `d_obtain_alias` of that inode); and an inode made by
`cfs_make_inode` has `i_ino` equal to the index it was given. -/
theorem fh_round_trip (rd : lcfs_reader) (vfs : vfs_env) (i : inode) (fh : List Nat)
    (max_len fh_len : Int) (hk : i.i_ino < 2 ^ 64) (hg : i.i_generation < 2 ^ 32)
    (hmax : 3 ≤ max_len) (hfh : 3 ≤ fh.length) (hlen : 3 ≤ fh_len) :
    (cfs_encode_fh i fh max_len).ret = 0x91 ∧
    (cfs_encode_fh i fh max_len).max_len = 3 ∧
    cfs_fh_decode (cfs_encode_fh i fh max_len).fh = (i.i_ino, i.i_generation) ∧
    cfs_fh_to_dentry rd vfs (cfs_encode_fh i fh max_len).fh fh_len 0x91 =
      cfs_fh_resolve rd vfs i.i_ino i.i_generation ∧
    (cfs_fh_resolve rd vfs i.i_ino i.i_generation).calls.head? = some (.ilookup i.i_ino) ∧
    (vfs.ilookup i.i_ino = none →
      (cfs_fh_resolve rd vfs i.i_ino i.i_generation).calls[1]? =
        some (.lcfs_get_ino_index i.i_ino)) ∧
    (∀ (ino_num : Nat) (ino : lcfs_inode_s) (cino : cfs_inode),
      cfs_make_inode rd vfs ino_num ino = .ok cino → cino.vfs_inode.i_ino = ino_num) ∧
    (∀ ino, vfs.ilookup i.i_ino = some ino →
      (cfs_fh_to_dentry rd vfs (cfs_encode_fh i fh max_len).fh fh_len 0x91).ret =
        if ino.vfs_inode.i_generation ≠ i.i_generation then some (.err (-ESTALE))
        else some (vfs.d_obtain_alias ino)) ∧
    (∀ e, vfs.ilookup i.i_ino = none → rd.lcfs_get_ino_index i.i_ino = .error e →
      (cfs_fh_to_dentry rd vfs (cfs_encode_fh i fh max_len).fh fh_len 0x91).ret =
        some (.err e)) ∧
    (∀ record, vfs.ilookup i.i_ino = none → rd.lcfs_get_ino_index i.i_ino = .ok record →
      (∀ e, cfs_make_inode rd vfs i.i_ino record = .err e →
        (cfs_fh_to_dentry rd vfs (cfs_encode_fh i fh max_len).fh fh_len 0x91).ret =
          some (.err e)) ∧
      (cfs_make_inode rd vfs i.i_ino record = .null →
        (cfs_fh_to_dentry rd vfs (cfs_encode_fh i fh max_len).fh fh_len 0x91).ret = none) ∧
      (∀ ino, cfs_make_inode rd vfs i.i_ino record = .ok ino →
        ino.vfs_inode.i_ino = i.i_ino ∧
        (cfs_fh_to_dentry rd vfs (cfs_encode_fh i fh max_len).fh fh_len 0x91).ret =
          if ino.vfs_inode.i_generation ≠ i.i_generation then some (.err (-ESTALE))
          else some (vfs.d_obtain_alias ino))) := by
  have hnot : ¬ max_len < 3 := by omega
  have henc : cfs_encode_fh i fh max_len =
      ⟨0x91, ((fh.set 0 (((i.i_ino % 2 ^ 64) >>> 32) % 2 ^ 32)).set 1
        (((i.i_ino % 2 ^ 64) &&& 0xffffffff) % 2 ^ 32)).set 2 (i.i_generation % 2 ^ 32), 3⟩ := by
    simp only [cfs_encode_fh, if_neg hnot]
  have hdec : cfs_fh_decode (cfs_encode_fh i fh max_len).fh = (i.i_ino, i.i_generation) := by
    rw [henc]
    obtain ⟨a, b, c, rest, rfl⟩ : ∃ a b c rest, fh = a :: b :: c :: rest := by
      match fh, hfh with
      | a :: b :: c :: rest, _ => exact ⟨a, b, c, rest, rfl⟩
    simp only [cfs_fh_decode, List.set_cons_zero, List.set_cons_succ, List.getD_cons_zero,
      List.getD_cons_succ, Nat.mod_eq_of_lt hk, Nat.mod_eq_of_lt hg, fh_words _ hk]
  have hto : cfs_fh_to_dentry rd vfs (cfs_encode_fh i fh max_len).fh fh_len 0x91 =
      cfs_fh_resolve rd vfs i.i_ino i.i_generation := by
    have hc : ¬ ((0x91 : Int) ≠ 0x91 ∨ fh_len < 3) := by omega
    simp only [cfs_fh_to_dentry, if_neg hc, hdec]
  have hgen : ∀ (ino : cfs_inode) (calls : List cfs_call),
      (cfs_fh_check_generation vfs ino i.i_generation calls).ret =
        if ino.vfs_inode.i_generation ≠ i.i_generation then some (.err (-ESTALE))
        else some (vfs.d_obtain_alias ino) := by
    intro ino calls
    unfold cfs_fh_check_generation
    split <;> rfl
  refine ⟨by rw [henc], by rw [henc], hdec, hto, ?_, ?_, fun n ino cino h =>
    make_inode_ino rd vfs n ino cino h, ?_, ?_, ?_⟩
  · unfold cfs_fh_resolve cfs_fh_check_generation
    split
    · split <;> rfl
    · split
      · rfl
      · split
        · rfl
        · rfl
        · split <;> rfl
  · intro hmiss
    unfold cfs_fh_resolve cfs_fh_check_generation
    rw [hmiss]
    simp only
    split
    · rfl
    · split
      · rfl
      · rfl
      · split <;> rfl
  · intro ino hhit
    rw [hto]
    unfold cfs_fh_resolve
    rw [hhit]
    exact hgen ino _
  · intro e hmiss herr
    rw [hto]
    unfold cfs_fh_resolve
    rw [hmiss, herr]
  · intro record hmiss hrec
    rw [hto]
    refine ⟨fun e hm => ?_, fun hm => ?_, fun ino hm => ⟨make_inode_ino rd vfs _ _ _ hm, ?_⟩⟩
    · unfold cfs_fh_resolve
      rw [hmiss, hrec]
      simp only [hm]
    · unfold cfs_fh_resolve
      rw [hmiss, hrec]
      simp only [hm]
    · unfold cfs_fh_resolve
      rw [hmiss, hrec]
      simp only [hm]
      exact hgen ino _

/-- Witness for C6: the index `2^40 + 5` with generation 0 is encoded into
three words; decoding them over an image whose record at each index is a file
of that size returns a dentry bound to the inode numbered `2^40 + 5` of size
`2^40 + 5`, the record at that index and at no other. -/
theorem fh_round_trip_witness :
    cfs_fh_decode (cfs_encode_fh { blank_inode.vfs_inode with i_ino := 2 ^ 40 + 5 }
      [0, 0, 0] 3).fh = (2 ^ 40 + 5, 0) ∧
    (cfs_fh_to_dentry sample_indexed_reader sample_vfs
      (cfs_encode_fh { blank_inode.vfs_inode with i_ino := 2 ^ 40 + 5 } [0, 0, 0] 3).fh
      3 0x91).calls =
      [.ilookup (2 ^ 40 + 5), .lcfs_get_ino_index (2 ^ 40 + 5), .cfs_make_inode (2 ^ 40 + 5),
        .d_obtain_alias] ∧
    (cfs_fh_to_dentry sample_indexed_reader sample_vfs
      (cfs_encode_fh { blank_inode.vfs_inode with i_ino := 2 ^ 40 + 5 } [0, 0, 0] 3).fh
      3 0x91).inode.map (fun c => (c.vfs_inode.i_ino, c.vfs_inode.i_size)) =
      some (2 ^ 40 + 5, 2 ^ 40 + 5) ∧
    (cfs_fh_to_dentry sample_indexed_reader sample_vfs
      (cfs_encode_fh { blank_inode.vfs_inode with i_ino := 2 ^ 40 + 5, i_generation := 9 }
        [0, 0, 0] 3).fh 3 0x91).ret = some (.err (-ESTALE)) := by
  have h := fh_round_trip sample_indexed_reader sample_vfs
    { blank_inode.vfs_inode with i_ino := 2 ^ 40 + 5 } [0, 0, 0] 3 3
    (by decide) (by decide) (by decide) (by decide) (by decide)
  refine ⟨h.2.2.1, ?_, ?_, by decide⟩
  · rw [h.2.2.2.1]
    decide
  · rw [h.2.2.2.1]
    decide

/-! ### `cfs_lookup` -/

/-- C7: in `cfs_lookup`, a name of at most `NAME_MAX` = 255 bytes that
`lcfs_lookup` reports as not found (return value 0) gives a negative entry:
`d_add(dentry, NULL)` is called, `NULL` is returned, and no inode record is
decoded.  A name longer than 255 bytes is refused with `-ENAMETOOLONG` before
the directory is consulted. -/
theorem lookup_not_found_is_negative (rd : lcfs_reader) (vfs : vfs_env) (dir : cfs_inode)
    (d_name : List Nat) :
    NAME_MAX = 255 ∧ LCFS_MAX_NAME_LENGTH = 255 ∧
    (d_name.length ≤ 255 → (rd.lcfs_lookup dir.dir d_name).1 = 0 →
      cfs_lookup rd vfs dir d_name = ⟨some .null, [.lcfs_lookup d_name, .d_add_negative]⟩) ∧
    (255 < d_name.length →
      cfs_lookup rd vfs dir d_name = ⟨some (.err (-ENAMETOOLONG)), []⟩) := by
  refine ⟨rfl, rfl, ?_, ?_⟩
  · intro hlen hnf
    have h : ¬ d_name.length > NAME_MAX := by simp only [NAME_MAX]; omega
    simp only [cfs_lookup, if_neg h, hnf, if_true]
  · intro hlen
    have h : d_name.length > NAME_MAX := by simp only [NAME_MAX]; omega
    simp only [cfs_lookup, if_pos h]

/-- Witness for C7: in the sample directory the name `b` is absent and gets a
negative entry, and a name of 256 bytes is refused. -/
theorem lookup_not_found_is_negative_witness :
    cfs_lookup sample_reader sample_vfs blank_inode [98] =
      ⟨some .null, [.lcfs_lookup [98], .d_add_negative]⟩ ∧
    cfs_lookup sample_reader sample_vfs blank_inode (List.replicate 256 97) =
      ⟨some (.err (-ENAMETOOLONG)), []⟩ :=
  ⟨(lookup_not_found_is_negative sample_reader sample_vfs blank_inode [98]).2.2.1
      (by decide) (by decide),
    (lookup_not_found_is_negative sample_reader sample_vfs blank_inode
      (List.replicate 256 97)).2.2.2 (by rw [List.length_replicate]; omega)⟩

/-! ### Inode flags and the encoded size -/

theorem flag_check_bit (flags k : Nat) :
    LCFS_INODE_FLAG_CHECK flags (1 <<< k) = flags.testBit k := by
  unfold LCFS_INODE_FLAG_CHECK
  rw [Nat.one_shiftLeft]
  cases hb : flags.testBit k with
  | true =>
    have hne : flags &&& 2 ^ k ≠ 0 := by
      intro h0
      have ht : (flags &&& 2 ^ k).testBit k = true := by
        rw [Nat.testBit_and, hb, Nat.testBit_two_pow_self]; rfl
      rw [h0, Nat.zero_testBit] at ht
      exact absurd ht (by decide)
    simpa using hne
  | false =>
    have h0 : flags &&& 2 ^ k = 0 := by
      apply Nat.eq_of_testBit_eq
      intro i
      rw [Nat.testBit_and, Nat.zero_testBit, Nat.testBit_two_pow]
      by_cases hki : k = i
      · subst hki; simp [hb]
      · simp [hki]
    simp [h0]

theorem flag_check_size_bit (flags k size : Nat) :
    LCFS_INODE_FLAG_CHECK_SIZE flags (1 <<< k) size = if flags.testBit k then size else 0 := by
  unfold LCFS_INODE_FLAG_CHECK_SIZE
  rw [flag_check_bit]

theorem encoded_size_eq_spec (flags : Nat) :
    lcfs_inode_encoded_size flags = spec_encoded_size flags := by
  have hb : ∀ (b : Bool) (w : Nat), (if b = true then w else 0) ≤ w := by
    intro b w; split <;> omega
  have h0 := hb (flags.testBit 0) 4
  have h1 := hb (flags.testBit 1) 4
  have h2 := hb (flags.testBit 2) 4
  have h3 := hb (flags.testBit 3) 8
  have h4 := hb (flags.testBit 4) 4
  have h5 := hb (flags.testBit 5) 16
  have h6 := hb (flags.testBit 6) 8
  have h7 := hb (flags.testBit 7) 4
  have h8 := hb (flags.testBit 8) 4
  have h9 := hb (flags.testBit 9) 8
  have h10 := hb (flags.testBit 10) 32
  simp only [lcfs_inode_encoded_size, LCFS_INODE_FLAGS_PAYLOAD, LCFS_INODE_FLAGS_MODE,
    LCFS_INODE_FLAGS_NLINK, LCFS_INODE_FLAGS_UIDGID, LCFS_INODE_FLAGS_RDEV,
    LCFS_INODE_FLAGS_TIMES, LCFS_INODE_FLAGS_TIMES_NSEC, LCFS_INODE_FLAGS_LOW_SIZE,
    LCFS_INODE_FLAGS_HIGH_SIZE, LCFS_INODE_FLAGS_XATTRS, LCFS_INODE_FLAGS_DIGEST,
    LCFS_DIGEST_SIZE, flag_check_size_bit, spec_encoded_size, inode_field_widths,
    List.map_cons, List.map_nil, List.sum_cons, List.sum_nil, Nat.reduceAdd, Nat.reduceMul]
  omega

/-- C8: for every flags word, `lcfs_inode_encoded_size(flags)` is 4 (the flags
word) plus the widths of exactly the optional fields whose bit is set (PAYLOAD
4, MODE 4, NLINK 4, UIDGID 8, RDEV 4, TIMES 16, TIMES_NSEC 8, LOW_SIZE 4,
HIGH_SIZE 4, XATTRS 8, DIGEST 32); bit 11 (DIGEST_FROM_PAYLOAD) and the bits
above it contribute nothing. -/
theorem encoded_size_is_sum_of_set_fields (flags : Nat) :
    lcfs_inode_encoded_size flags =
      4 + (inode_field_widths.map (fun e => if flags.testBit e.1 then e.2 else 0)).sum ∧
    lcfs_inode_encoded_size flags = lcfs_inode_encoded_size (flags % 2 ^ 11) ∧
    (∀ k, 11 ≤ k → lcfs_inode_encoded_size (flags ||| 1 <<< k) = lcfs_inode_encoded_size flags) ∧
    lcfs_inode_encoded_size (flags ||| LCFS_INODE_FLAGS_DIGEST_FROM_PAYLOAD) =
      lcfs_inode_encoded_size flags := by
  have hlow : ∀ f g : Nat, (∀ i, i < 11 → f.testBit i = g.testBit i) →
      lcfs_inode_encoded_size f = lcfs_inode_encoded_size g := by
    intro f g h
    rw [encoded_size_eq_spec, encoded_size_eq_spec]
    simp only [spec_encoded_size, inode_field_widths, List.map_cons, List.map_nil,
      h 0 (by omega), h 1 (by omega), h 2 (by omega), h 3 (by omega), h 4 (by omega),
      h 5 (by omega), h 6 (by omega), h 7 (by omega), h 8 (by omega), h 9 (by omega),
      h 10 (by omega)]
  have hor : ∀ k, 11 ≤ k →
      lcfs_inode_encoded_size (flags ||| 1 <<< k) = lcfs_inode_encoded_size flags := by
    intro k hk
    apply hlow
    intro i hi
    rw [Nat.testBit_or, Nat.one_shiftLeft, Nat.testBit_two_pow_of_ne (by omega), Bool.or_false]
  refine ⟨encoded_size_eq_spec flags, hlow _ _ ?_, hor, hor 11 (by omega)⟩
  intro i hi
  rw [Nat.testBit_mod_two_pow]
  simp [hi]

/-- Witness for C8: no optional field gives 4 bytes, all eleven give 100, the
marker bit alone gives 4, and MODE with DIGEST gives 40. -/
theorem encoded_size_is_sum_of_set_fields_witness :
    lcfs_inode_encoded_size 0 = 4 ∧ lcfs_inode_encoded_size 0x7ff = 100 ∧
    lcfs_inode_encoded_size LCFS_INODE_FLAGS_DIGEST_FROM_PAYLOAD = 4 ∧
    lcfs_inode_encoded_size (LCFS_INODE_FLAGS_MODE ||| LCFS_INODE_FLAGS_DIGEST) = 40 ∧
    lcfs_inode_encoded_size 0xfffff802 = 8 := by
  have h := (encoded_size_is_sum_of_set_fields 0xfffff802).1
  exact ⟨by decide, by decide, by decide, by decide, h.trans (by decide)⟩

/-! ### Byte order -/

theorem le_bytes_length : ∀ n v : Nat, (le_bytes n v).length = n
  | 0, _ => rfl
  | n + 1, v => by simp [le_bytes, le_bytes_length n]

theorem le_bytes_lt : ∀ (n v b : Nat), b ∈ le_bytes n v → b < 256
  | 0, _, _, h => by simp [le_bytes] at h
  | n + 1, v, b, h => by
    simp only [le_bytes, List.mem_cons] at h
    rcases h with rfl | h
    · exact Nat.mod_lt _ (by norm_num)
    · exact le_bytes_lt n _ b h

theorem of_le_bytes_le_bytes : ∀ n v : Nat, of_le_bytes (le_bytes n v) = v % 256 ^ n
  | 0, v => by simp [le_bytes, of_le_bytes, Nat.mod_one]
  | n + 1, v => by
    simp only [le_bytes, of_le_bytes, of_le_bytes_le_bytes n]
    rw [pow_succ', Nat.mod_mul]

theorem le_bytes_of_le_bytes : ∀ bs : List Nat, (∀ b ∈ bs, b < 256) →
    le_bytes bs.length (of_le_bytes bs) = bs
  | [], _ => rfl
  | b :: bs, h => by
    have hb : b < 256 := h b (by simp)
    have ih := le_bytes_of_le_bytes bs (fun c hc => h c (by simp [hc]))
    simp only [List.length_cons, le_bytes, of_le_bytes]
    have e1 : (b + 256 * of_le_bytes bs) % 256 = b := by omega
    have e2 : (b + 256 * of_le_bytes bs) / 256 = of_le_bytes bs := by omega
    rw [e1, e2, ih]

theorem le_bytes_bswap (n v : Nat) : le_bytes n (bswap n v) = (le_bytes n v).reverse := by
  have h := le_bytes_of_le_bytes (le_bytes n v).reverse
    (fun b hb => le_bytes_lt n v b (List.mem_reverse.1 hb))
  rw [List.length_reverse, le_bytes_length] at h
  exact h

theorem bswap_bswap (n v : Nat) (hv : v < 256 ^ n) : bswap n (bswap n v) = v := by
  have h : bswap n (bswap n v) = of_le_bytes (le_bytes n (bswap n v)).reverse := rfl
  rw [h, le_bytes_bswap, List.reverse_reverse, of_le_bytes_le_bytes, Nat.mod_eq_of_lt hv]

theorem file_order (host : byte_order) (n v : Nat) (hv : v < 256 ^ n) :
    letoh host n (htole host n v) = v ∧ htole host n (letoh host n v) = v ∧
    host_bytes host n (htole host n v) = le_bytes n v := by
  cases host with
  | little_endian => exact ⟨rfl, rfl, rfl⟩
  | big_endian =>
    refine ⟨bswap_bswap n v hv, bswap_bswap n v hv, ?_⟩
    simp only [host_bytes, htole, le_bytes_bswap, List.reverse_reverse]

/-- C9: the conversions between host and file byte order are symmetric and do
not depend on the host.  For every 16-, 32- and 64-bit value `v`, on a
little-endian and on a big-endian host, `lcfs_uN_from_file(lcfs_uN_to_file(v))`
and `lcfs_uN_to_file(lcfs_uN_from_file(v))` are `v`, and the bytes of
`lcfs_uN_to_file(v)` in the host's memory are the little-endian encoding of
`v`. -/
theorem file_byte_order_symmetric (host : byte_order) (v : Nat) :
    (v < 2 ^ 16 →
      lcfs_u16_from_file host (lcfs_u16_to_file host v) = v ∧
      lcfs_u16_to_file host (lcfs_u16_from_file host v) = v ∧
      host_bytes host 2 (lcfs_u16_to_file host v) = [v % 256, v / 256]) ∧
    (v < 2 ^ 32 →
      lcfs_u32_from_file host (lcfs_u32_to_file host v) = v ∧
      lcfs_u32_to_file host (lcfs_u32_from_file host v) = v ∧
      host_bytes host 4 (lcfs_u32_to_file host v) =
        [v % 256, v / 256 % 256, v / 256 ^ 2 % 256, v / 256 ^ 3]) ∧
    (v < 2 ^ 64 →
      lcfs_u64_from_file host (lcfs_u64_to_file host v) = v ∧
      lcfs_u64_to_file host (lcfs_u64_from_file host v) = v ∧
      host_bytes host 8 (lcfs_u64_to_file host v) =
        [v % 256, v / 256 % 256, v / 256 ^ 2 % 256, v / 256 ^ 3 % 256, v / 256 ^ 4 % 256,
          v / 256 ^ 5 % 256, v / 256 ^ 6 % 256, v / 256 ^ 7]) := by
  refine ⟨fun hv => ?_, fun hv => ?_, fun hv => ?_⟩
  · obtain ⟨h1, h2, h3⟩ := file_order host 2 v (by norm_num; omega)
    refine ⟨h1, h2, ?_⟩
    show host_bytes host 2 (htole host 2 v) = _
    rw [h3]
    simp only [le_bytes, List.cons.injEq, and_true, true_and]
    omega
  · obtain ⟨h1, h2, h3⟩ := file_order host 4 v (by norm_num; omega)
    refine ⟨h1, h2, ?_⟩
    show host_bytes host 4 (htole host 4 v) = _
    rw [h3]
    simp only [le_bytes, List.cons.injEq, and_true, true_and]
    omega
  · obtain ⟨h1, h2, h3⟩ := file_order host 8 v (by norm_num; omega)
    refine ⟨h1, h2, ?_⟩
    show host_bytes host 8 (htole host 8 v) = _
    rw [h3]
    simp only [le_bytes, List.cons.injEq, and_true, true_and]
    omega

/-- Witness for C9: on a big-endian host `0x1234` is written as the word
`0x3412`, whose bytes in memory are `0x34, 0x12`, and is read back as
`0x1234`. -/
theorem file_byte_order_symmetric_witness :
    lcfs_u16_to_file .big_endian 0x1234 = 0x3412 ∧
    host_bytes .big_endian 2 (lcfs_u16_to_file .big_endian 0x1234) = [0x34, 0x12] ∧
    lcfs_u16_from_file .big_endian (lcfs_u16_to_file .big_endian 0x1234) = 0x1234 ∧
    host_bytes .little_endian 4 (lcfs_u32_to_file .little_endian 0xc078629a) =
      [0x9a, 0x62, 0x78, 0xc0] ∧
    host_bytes .big_endian 4 (lcfs_u32_to_file .big_endian 0xc078629a) =
      [0x9a, 0x62, 0x78, 0xc0] := by
  have h := (file_byte_order_symmetric .big_endian 0x1234).1 (by norm_num)
  exact ⟨by decide, by decide, h.1, by decide, by decide⟩

/-! ### The `digest=` mount option -/

theorem char_at_append : ∀ (pre t : List Nat) (k : Nat),
    char_at (pre ++ t) (pre.length + k) = char_at t k
  | [], t, k => by simp [char_at]
  | _ :: pre, t, k => by
    have h := char_at_append pre t k
    simp only [char_at] at h ⊢
    simp only [List.cons_append, List.length_cons]
    rw [show pre.length + 1 + k = (pre.length + k) + 1 by omega, List.getD_cons_succ]
    exact h

theorem c_string_nil : c_string [] = [] := rfl

theorem c_string_zero (t : List Nat) : c_string (0 :: t) = [] := by
  simp [c_string, List.takeWhile_cons]

theorem c_string_cons {a : Nat} (t : List Nat) (h : a ≠ 0) :
    c_string (a :: t) = a :: c_string t := by
  simp [c_string, List.takeWhile_cons, h]

theorem is_hex_nonzero {c : Nat} (h : is_hex c = true) : c ≠ 0 := by
  rintro rfl; exact absurd h (by decide)

theorem xdigit_value_cases (c : Nat) :
    (is_hex c = true ∧ xdigit_value c = (value c : Int) ∧ value c < 16) ∨
    (is_hex c = false ∧ xdigit_value c = -1) := xdigit_cases c

theorem string_loop_step (s : List Nat) (n i : Nat) (d : List Nat) (a b : Nat)
    (ha : char_at s (2 * i) = a) (hb : char_at s (2 * i + 1) = b)
    (hxa : is_hex a = true) (hxb : is_hex b = true) :
    digest_from_string_loop s (n + 1) i d =
      digest_from_string_loop s n (i + 1) (d.set i (16 * value a + value b)) := by
  have hane := is_hex_nonzero hxa
  have hbne := is_hex_nonzero hxb
  obtain ⟨hva, hla⟩ : xdigit_value a = (value a : Int) ∧ value a < 16 := by
    rcases xdigit_value_cases a with ⟨_, h⟩ | ⟨h, _⟩
    · exact h
    · rw [hxa] at h; exact absurd h (by decide)
  obtain ⟨hvb, hlb⟩ : xdigit_value b = (value b : Int) ∧ value b < 16 := by
    rcases xdigit_value_cases b with ⟨_, h⟩ | ⟨h, _⟩
    · exact h
    · rw [hxb] at h; exact absurd h (by decide)
  have h1 : ¬ (a = 0 ∨ b = 0) := by simp [hane, hbne]
  have h2 : ¬ ((value a : Int) = -1 ∨ (value b : Int) = -1) := by omega
  rw [digest_from_string_loop]
  simp only [ha, hb, h1, if_false, hva, hvb, h2, Int.toNat_ofNat, nibble_pair _ _ hla hlb]

theorem string_loop_fail (s : List Nat) (n i : Nat) (d : List Nat)
    (h : char_at s (2 * i) = 0 ∨ char_at s (2 * i + 1) = 0 ∨
      is_hex (char_at s (2 * i)) = false ∨ is_hex (char_at s (2 * i + 1)) = false) :
    digest_from_string_loop s (n + 1) i d = (-EINVAL, d) := by
  rw [digest_from_string_loop]
  by_cases h1 : char_at s (2 * i) = 0 ∨ char_at s (2 * i + 1) = 0
  · simp only [h1, if_true]
  · simp only [h1, if_false]
    have h2 : xdigit_value (char_at s (2 * i)) = -1 ∨
        xdigit_value (char_at s (2 * i + 1)) = -1 := by
      rcases h with h | h | h | h
      · exact absurd (Or.inl h) h1
      · exact absurd (Or.inr h) h1
      · left
        rcases xdigit_value_cases (char_at s (2 * i)) with ⟨h', _⟩ | ⟨_, h'⟩
        · rw [h] at h'; exact absurd h' (by decide)
        · exact h'
      · right
        rcases xdigit_value_cases (char_at s (2 * i + 1)) with ⟨h', _⟩ | ⟨_, h'⟩
        · rw [h] at h'; exact absurd h' (by decide)
        · exact h'
    simp only [h2, if_true]

theorem char_at_append_zero (pre t : List Nat) (i : Nat) (hpre : pre.length = 2 * i) :
    char_at (pre ++ t) (2 * i) = char_at t 0 := by
  rw [← hpre]; exact char_at_append pre t 0

theorem char_at_append_one (pre t : List Nat) (i : Nat) (hpre : pre.length = 2 * i) :
    char_at (pre ++ t) (2 * i + 1) = char_at t 1 := by
  rw [← hpre]; exact char_at_append pre t 1

theorem string_loop_ret : ∀ (n : Nat) (pre t d : List Nat) (i : Nat), pre.length = 2 * i →
    ((digest_from_string_loop (pre ++ t) n i d).1 = 0 ↔
      (c_string t).length = 2 * n ∧ ∀ c ∈ c_string t, is_hex c = true) ∧
    ((digest_from_string_loop (pre ++ t) n i d).1 = 0 ∨
      (digest_from_string_loop (pre ++ t) n i d).1 = -EINVAL)
  | 0, pre, t, d, i, hpre => by
    rw [digest_from_string_loop, char_at_append_zero pre t i hpre]
    cases t with
    | nil => simp [char_at, c_string]
    | cons a t1 =>
      by_cases ha : a = 0
      · subst ha; simp [char_at, c_string_zero]
      · simp [char_at, c_string_cons t1 ha, ha, EINVAL]
  | n + 1, pre, t, d, i, hpre => by
    have hc0 := char_at_append_zero pre t i hpre
    have hc1 := char_at_append_one pre t i hpre
    have fail : ∀ (_ : char_at t 0 = 0 ∨ char_at t 1 = 0 ∨
        is_hex (char_at t 0) = false ∨ is_hex (char_at t 1) = false),
        digest_from_string_loop (pre ++ t) (n + 1) i d = (-EINVAL, d) := by
      intro h
      apply string_loop_fail
      rw [hc0, hc1]; exact h
    have hne : ¬ ((-EINVAL : Int) = 0) := by decide
    cases t with
    | nil =>
      rw [fail (Or.inl rfl)]
      simp only [hne, c_string_nil, List.length_nil, false_iff, false_or, and_true]
      omega
    | cons a t1 =>
      by_cases ha : a = 0
      · rw [fail (Or.inl ha)]
        subst ha
        simp only [hne, c_string_zero, List.length_nil, false_iff, false_or, and_true]
        omega
      cases t1 with
      | nil =>
        rw [fail (Or.inr (Or.inl rfl))]
        simp only [hne, c_string_cons _ ha, c_string_nil, List.length_singleton, false_iff,
          false_or, and_true]
        omega
      | cons b t2 =>
        by_cases hb : b = 0
        · rw [fail (Or.inr (Or.inl hb))]
          subst hb
          simp only [hne, c_string_cons _ ha, c_string_zero, List.length_singleton, false_iff,
            false_or, and_true]
          omega
        rw [c_string_cons _ ha, c_string_cons _ hb]
        cases hxa : is_hex a with
        | false =>
          rw [fail (Or.inr (Or.inr (Or.inl hxa)))]
          simp only [hne, false_iff, false_or, and_true]
          rintro ⟨_, h⟩
          have := h a (by simp)
          rw [hxa] at this; exact absurd this (by decide)
        | true =>
          cases hxb : is_hex b with
          | false =>
            rw [fail (Or.inr (Or.inr (Or.inr hxb)))]
            simp only [hne, false_iff, false_or, and_true]
            rintro ⟨_, h⟩
            have := h b (by simp)
            rw [hxb] at this; exact absurd this (by decide)
          | true =>
            rw [string_loop_step (pre ++ a :: b :: t2) n i d a b (by rw [hc0]; rfl)
              (by rw [hc1]; rfl) hxa hxb]
            have happ : pre ++ a :: b :: t2 = (pre ++ [a, b]) ++ t2 := by simp
            rw [happ]
            obtain ⟨ih1, ih2⟩ := string_loop_ret n (pre ++ [a, b]) t2
              (d.set i (16 * value a + value b)) (i + 1)
              (by simp only [List.length_append, List.length_cons, List.length_nil]; omega)
            refine ⟨?_, ih2⟩
            rw [ih1]
            simp only [List.length_cons, List.mem_cons, forall_eq_or_imp, hxa, hxb, true_and]
            constructor
            · rintro ⟨h, h'⟩; exact ⟨by omega, h'⟩
            · rintro ⟨h, h'⟩; exact ⟨by omega, h'⟩

theorem string_loop_out : ∀ (n : Nat) (pre t dpre buf : List Nat),
    pre.length = 2 * dpre.length → (c_string t).length = 2 * n →
    (∀ c ∈ c_string t, is_hex c = true) → n ≤ buf.length →
    digest_from_string_loop (pre ++ t) n dpre.length (dpre ++ buf) =
      (0, dpre ++ decode_pairs (c_string t) ++ buf.drop n)
  | 0, pre, t, dpre, buf, hpre, hlen, _, _ => by
    have hnil : c_string t = [] := List.length_eq_zero.1 hlen
    have hz : char_at t 0 = 0 := by
      cases t with
      | nil => rfl
      | cons a t1 =>
        by_cases ha : a = 0
        · subst ha; rfl
        · rw [c_string_cons _ ha] at hnil; exact absurd hnil (by simp)
    rw [digest_from_string_loop, char_at_append_zero pre t _ hpre, hz, hnil]
    simp [decode_pairs]
  | n + 1, pre, t, dpre, buf, hpre, hlen, hhex, hbuf => by
    obtain ⟨a, b, t2, rfl, ha, hb⟩ : ∃ a b t2, t = a :: b :: t2 ∧ a ≠ 0 ∧ b ≠ 0 := by
      cases t with
      | nil => rw [c_string_nil] at hlen; simp at hlen
      | cons a t1 =>
        by_cases ha : a = 0
        · subst ha; rw [c_string_zero] at hlen; simp at hlen
        cases t1 with
        | nil => rw [c_string_cons _ ha, c_string_nil] at hlen; simp at hlen; omega
        | cons b t2 =>
          by_cases hb : b = 0
          · subst hb; rw [c_string_cons _ ha, c_string_zero] at hlen; simp at hlen; omega
          exact ⟨a, b, t2, rfl, ha, hb⟩
    rw [c_string_cons _ ha, c_string_cons _ hb] at hlen hhex ⊢
    have hxa : is_hex a = true := hhex a (by simp)
    have hxb : is_hex b = true := hhex b (by simp)
    obtain ⟨y, buf', rfl⟩ : ∃ y buf', buf = y :: buf' := by
      cases buf with
      | nil => simp at hbuf
      | cons y buf' => exact ⟨y, buf', rfl⟩
    rw [string_loop_step (pre ++ a :: b :: t2) n dpre.length _ a b
      (by rw [char_at_append_zero pre _ _ hpre]; rfl)
      (by rw [char_at_append_one pre _ _ hpre]; rfl) hxa hxb]
    have hset : (dpre ++ y :: buf').set dpre.length (16 * value a + value b) =
        (dpre ++ [16 * value a + value b]) ++ buf' := by
      simp [List.set_append]
    have happ : pre ++ a :: b :: t2 = (pre ++ [a, b]) ++ t2 := by simp
    have hi : dpre.length + 1 = (dpre ++ [16 * value a + value b]).length := by simp
    rw [hset, happ, hi]
    rw [string_loop_out n (pre ++ [a, b]) t2 (dpre ++ [16 * value a + value b]) buf'
      (by simp only [List.length_append, List.length_cons, List.length_nil]; omega)
      (by simp only [List.length_cons] at hlen; omega)
      (fun c hc => hhex c (by simp [hc]))
      (by simp only [List.length_cons] at hbuf; omega)]
    simp [decode_pairs]

theorem digest_from_string_ret (s d : List Nat) :
    ((digest_from_string s d).1 = 0 ↔
      (c_string s).length = 64 ∧ ∀ c ∈ c_string s, is_hex c = true) ∧
    ((digest_from_string s d).1 = 0 ∨ (digest_from_string s d).1 = -EINVAL) :=
  string_loop_ret 32 [] s d 0 rfl

theorem digest_from_string_out (s d : List Nat) (hd : d.length = 32)
    (hlen : (c_string s).length = 64) (hhex : ∀ c ∈ c_string s, is_hex c = true) :
    digest_from_string s d = (0, decode_pairs (c_string s)) := by
  have h := string_loop_out 32 [] s [] d rfl hlen hhex (by omega)
  have hdrop : d.drop 32 = [] := List.drop_eq_nil_of_le (by omega)
  simp only [List.nil_append, List.length_nil, hdrop, List.append_nil] at h
  exact h

/-- C10: `digest_from_string` returns 0 exactly when the NUL-terminated string
is 64 characters long and all of them are hexadecimal digits, and `-EINVAL`
otherwise (shorter, longer, or a non-hex character).  On success it stores
`digest[i] = 16 * value(s[2i]) + value(s[2i+1])` for `i` in `0..31`, and
`cfs_parse_param` sets `has_digest`; on failure `cfs_parse_param` returns the
same `-EINVAL` and leaves `has_digest` as it was. -/
theorem digest_option_accepts_iff (s digest : List Nat) (fsi : cfs_info) (boolean : Bool) :
    ((digest_from_string s digest).1 = 0 ↔
      (c_string s).length = 64 ∧ ∀ c ∈ c_string s, is_hex c = true) ∧
    ((digest_from_string s digest).1 = 0 ∨ (digest_from_string s digest).1 = -EINVAL) ∧
    (digest.length = 32 → (digest_from_string s digest).1 = 0 →
      (digest_from_string s digest).2.length = 32 ∧
      ∀ i, i < 32 → (digest_from_string s digest).2[i]? =
        some (16 * value ((c_string s).getD (2 * i) 0) +
          value ((c_string s).getD (2 * i + 1) 0))) ∧
    ((digest_from_string s fsi.digest).1 ≠ 0 →
      (cfs_parse_param fsi ⟨Opt_digest, boolean⟩ (some s)).1 = -EINVAL ∧
      (cfs_parse_param fsi ⟨Opt_digest, boolean⟩ (some s)).2.1.has_digest = fsi.has_digest) ∧
    ((digest_from_string s fsi.digest).1 = 0 →
      (cfs_parse_param fsi ⟨Opt_digest, boolean⟩ (some s)).1 = 0 ∧
      (cfs_parse_param fsi ⟨Opt_digest, boolean⟩ (some s)).2.1.has_digest = true) := by
  obtain ⟨hiff, hcases⟩ := digest_from_string_ret s digest
  refine ⟨hiff, hcases, ?_, ?_, ?_⟩
  · intro hd h0
    obtain ⟨hlen, hhex⟩ := hiff.1 h0
    rw [digest_from_string_out s digest hd hlen hhex]
    refine ⟨?_, fun i hi => decode_pairs_get _ i (by omega)⟩
    show (decode_pairs (c_string s)).length = 32
    rw [decode_pairs_length, hlen]
  · intro hne
    have hr : (digest_from_string s fsi.digest).1 = -EINVAL := by
      rcases (digest_from_string_ret s fsi.digest).2 with h | h
      · exact absurd h hne
      · exact h
    have hneg : (digest_from_string s fsi.digest).1 < 0 := by rw [hr]; decide
    have hpos : (0 : Int) < EINVAL := by decide
    simp [cfs_parse_param, Opt_digest, Opt_descriptor_file, Opt_base_path, hr, hpos]
  · intro h0
    have hnn : ¬ (digest_from_string s fsi.digest).1 < 0 := by rw [h0]; decide
    simp [cfs_parse_param, Opt_digest, Opt_descriptor_file, Opt_base_path, hnn, h0]

/-- Witness for C10: the option value `000102...1f` is accepted and gives the
bytes `0, 1, ..., 31`; the same value without its last character, or with one
more, or with a `g` in front, is refused with `-EINVAL`. -/
theorem digest_option_accepts_iff_witness :
    digest_from_string sample_digest_string (List.replicate 32 0) = (0, List.range 32) ∧
    (digest_from_string sample_digest_string.dropLast (List.replicate 32 0)).1 = -EINVAL ∧
    (digest_from_string (sample_digest_string ++ [48]) (List.replicate 32 0)).1 = -EINVAL ∧
    (digest_from_string (103 :: sample_digest_string.tail) (List.replicate 32 0)).1 = -EINVAL ∧
    (cfs_parse_param sample_fsi ⟨Opt_digest, false⟩ (some sample_digest_string.dropLast)).1 =
      -EINVAL ∧
    (cfs_parse_param sample_fsi ⟨Opt_digest, false⟩
      (some sample_digest_string.dropLast)).2.1.has_digest = false := by
  have h := (digest_option_accepts_iff sample_digest_string.dropLast (List.replicate 32 0)
    sample_fsi false).2.2.2.1 (by decide)
  exact ⟨by decide, by decide, by decide, by decide, h.1, h.2⟩

theorem open_real_file_same (env₁ env₂ : open_env) (h : differ_only_in_verity env₁ env₂)
    (fsi : cfs_info) (path : List Nat) (flags : Nat) :
    same_but_verity (cfs_open_real_file env₁ fsi path flags)
      (cfs_open_real_file env₂ fsi path flags) := by
  unfold cfs_open_real_file
  cases fsi.base with
  | none => exact h.1 path flags
  | some base =>
    simp only
    split
    · exact h.1 path flags
    · exact h.2 base path flags

theorem open_file_unchecked (env : open_env) (cino : cfs_inode) (fsi : cfs_info)
    (file : open_file) (hno : cino.has_digest = false ∨ fsi.noverity = true)
    (hro : file.f_flags &&& (O_WRONLY ||| O_RDWR ||| O_CREAT ||| O_EXCL ||| O_TRUNC) = 0)
    (real_path : List Nat) (hpath : cino.real_path = some real_path) :
    cfs_open_file env cino fsi (some file) =
      match cfs_open_real_file env fsi real_path file.f_flags with
      | .error e => ⟨e, some file, []⟩
      | .ok real_file => ⟨0, some { file with private_data := .real real_file }, []⟩ := by
  have hro' : ¬ (file.f_flags &&& (O_WRONLY ||| O_RDWR ||| O_CREAT ||| O_EXCL ||| O_TRUNC) ≠ 0) :=
    fun h => h hro
  have hc : (cino.has_digest && !fsi.noverity) = false := by
    rcases hno with h | h <;> simp [h]
  simp only [cfs_open_file, if_neg hro', hpath, hc]
  cases cfs_open_real_file env fsi real_path file.f_flags <;> simp

/-- C11: absence of a digest means no verification.  When the inode has no
digest or the mount has `noverity`, two runs of `cfs_open_file` whose backing
files differ only in their fs-verity information (none, another size, other
bytes) return the same value and release nothing; and a read-only open whose
backing file opens returns 0 with that file installed as `private_data`. -/
theorem open_file_without_digest_ignores_verity (env₁ env₂ : open_env) (cino : cfs_inode)
    (fsi : cfs_info) (file : Option open_file)
    (henv : differ_only_in_verity env₁ env₂)
    (hno : cino.has_digest = false ∨ fsi.noverity = true) :
    (cfs_open_file env₁ cino fsi file).ret = (cfs_open_file env₂ cino fsi file).ret ∧
    (cfs_open_file env₁ cino fsi file).fput = [] ∧
    (cfs_open_file env₂ cino fsi file).fput = [] ∧
    (∀ (f : open_file) (real_path : List Nat) (real_file : backing_file),
      file = some f →
      f.f_flags &&& (O_WRONLY ||| O_RDWR ||| O_CREAT ||| O_EXCL ||| O_TRUNC) = 0 →
      cino.real_path = some real_path →
      cfs_open_real_file env₁ fsi real_path f.f_flags = .ok real_file →
      cfs_open_file env₁ cino fsi file =
        ⟨0, some { f with private_data := .real real_file }, []⟩) := by
  have hlast : ∀ (f : open_file) (real_path : List Nat) (real_file : backing_file),
      file = some f →
      f.f_flags &&& (O_WRONLY ||| O_RDWR ||| O_CREAT ||| O_EXCL ||| O_TRUNC) = 0 →
      cino.real_path = some real_path →
      cfs_open_real_file env₁ fsi real_path f.f_flags = .ok real_file →
      cfs_open_file env₁ cino fsi file =
        ⟨0, some { f with private_data := .real real_file }, []⟩ := by
    intro f real_path real_file hf hro hpath hopen
    subst hf
    rw [open_file_unchecked env₁ cino fsi f hno hro real_path hpath, hopen]
  refine ⟨?_, ?_, ?_, hlast⟩
  all_goals
    cases file with
    | none => simp [cfs_open_file]
    | some f =>
      by_cases hro : f.f_flags &&& (O_WRONLY ||| O_RDWR ||| O_CREAT ||| O_EXCL ||| O_TRUNC) = 0
      · cases hpath : cino.real_path with
        | none =>
          have hro' : ¬ (f.f_flags &&&
              (O_WRONLY ||| O_RDWR ||| O_CREAT ||| O_EXCL ||| O_TRUNC) ≠ 0) := fun h => h hro
          simp [cfs_open_file, hro', hpath]
        | some real_path =>
          have hs := open_real_file_same env₁ env₂ henv fsi real_path f.f_flags
          simp only [open_file_unchecked _ cino fsi f hno hro real_path hpath]
          revert hs
          cases cfs_open_real_file env₁ fsi real_path f.f_flags <;>
            cases cfs_open_real_file env₂ fsi real_path f.f_flags <;>
            simp [same_but_verity]
      · have hro' : f.f_flags &&&
            (O_WRONLY ||| O_RDWR ||| O_CREAT ||| O_EXCL ||| O_TRUNC) ≠ 0 := hro
        simp [cfs_open_file, hro']

/-- Witness for C11: an inode without digest is opened read-only both over a
backing file with an fs-verity digest and over one with no fs-verity
information, with the same return value 0. -/
theorem open_file_without_digest_ignores_verity_witness :
    (cfs_open_file (sample_open_env (List.replicate 32 7))
      { sample_file_inode with has_digest := false } sample_fsi (some ⟨0, .unset⟩)).ret = 0 ∧
    (cfs_open_file sample_open_env_plain
      { sample_file_inode with has_digest := false } sample_fsi (some ⟨0, .unset⟩)).ret = 0 ∧
    cfs_open_file sample_open_env_plain
      { sample_file_inode with has_digest := false } sample_fsi (some ⟨0, .unset⟩) =
      ⟨0, some ⟨0, .real ⟨1, none⟩⟩, []⟩ := by
  have h := open_file_without_digest_ignores_verity sample_open_env_plain
    (sample_open_env (List.replicate 32 7)) { sample_file_inode with has_digest := false }
    sample_fsi (some ⟨0, .unset⟩) ⟨fun _ _ => rfl, fun _ _ _ => rfl⟩ (Or.inl rfl)
  have h0 := h.2.2.2 ⟨0, .unset⟩ [97] ⟨1, none⟩ rfl (by decide) rfl rfl
  have hr : (cfs_open_file sample_open_env_plain
      { sample_file_inode with has_digest := false } sample_fsi (some ⟨0, .unset⟩)).ret = 0 := by
    rw [h0]
  exact ⟨h.1 ▸ hr, hr, h0⟩

/-! ### The memory accesses of `lcfs_digest_from_payload` -/

theorem walk_bounds (payload : Nat → Nat) : ∀ (todo p : Nat) (st : PayloadLoop)
    (acc : PayloadAccess), st.n_nibbles ≤ 64 →
    (∀ x ∈ (lcfs_digest_walk payload todo p st acc).2.reads,
      x ∈ acc.reads ∨ (p ≤ x ∧ x < p + todo)) ∧
    (∀ i ∈ (lcfs_digest_walk payload todo p st acc).2.writes,
      i ∈ acc.writes ∨ (0 ≤ i ∧ i < 32)) ∧
    (lcfs_digest_walk payload todo p st acc).2.iterations ≤ acc.iterations + todo ∧
    (lcfs_digest_walk payload todo p st acc).1 =
      lcfs_digest_loop ((List.range' p todo).map payload) st
  | 0, p, st, acc, _ => by
    simp only [lcfs_digest_walk, List.range'_zero, List.map_nil, lcfs_digest_loop]
    exact ⟨fun x hx => Or.inl hx, fun i hi => Or.inl hi, by omega, trivial⟩
  | todo + 1, p, st, acc, hst => by
    rw [List.range'_succ, List.map_cons, lcfs_digest_walk, lcfs_digest_loop]
    simp only
    by_cases h1 : payload p = 47
    · simp only [h1, if_true]
      obtain ⟨a, b, c, d⟩ := walk_bounds payload todo (p + 1) st
        { acc with iterations := acc.iterations + 1, reads := acc.reads ++ [p] } hst
      refine ⟨fun x hx => ?_, b, by simp only at c; omega, d⟩
      rcases a x hx with h | h
      · simp only [List.mem_append, List.mem_singleton] at h
        rcases h with h | h
        · exact Or.inl h
        · exact Or.inr (by omega)
      · exact Or.inr (by omega)
    simp only [h1, if_false]
    have hbase : ∀ x ∈ acc.reads ++ [p], x ∈ acc.reads ∨ (p ≤ x ∧ x < p + (todo + 1)) := by
      intro x hx
      simp only [List.mem_append, List.mem_singleton] at hx
      rcases hx with h | h
      · exact Or.inl h
      · exact Or.inr (by omega)
    by_cases h2 : payload p = 46
    · simp only [h2, if_true]
      exact ⟨hbase, fun i hi => Or.inl hi, by omega, trivial⟩
    simp only [h2, if_false]
    by_cases h3 : st.n_nibbles = LCFS_DIGEST_SIZE * 2
    · simp only [h3, if_true]
      exact ⟨hbase, fun i hi => Or.inl hi, by omega, trivial⟩
    simp only [h3, if_false]
    by_cases h4 : lcfs_xdigit_value (payload p) = -1
    · simp only [h4, if_true]
      exact ⟨hbase, fun i hi => Or.inl hi, by omega, trivial⟩
    simp only [h4, if_false]
    have hn : st.n_nibbles + 1 ≤ 64 := by
      simp only [LCFS_DIGEST_SIZE] at h3; omega
    by_cases h5 : (st.n_nibbles + 1) % 2 = 0
    · simp only [h5, if_true]
      obtain ⟨a, b, c, d⟩ := walk_bounds payload todo (p + 1)
        ⟨(lcfs_xdigit_value (payload p)).toNat % 256, st.n_nibbles + 1,
          st.digest_out.set ((st.n_nibbles + 1) / 2 - 1)
            (((st.last_digit <<< 4) ||| (lcfs_xdigit_value (payload p)).toNat) % 256)⟩
        { iterations := acc.iterations + 1, reads := acc.reads ++ [p],
          writes := acc.writes ++ [(((st.n_nibbles + 1) / 2 : Nat) : Int) - 1] } hn
      refine ⟨fun x hx => ?_, fun i hi => ?_, by simp only at c; omega, d⟩
      · rcases a x hx with h | h
        · exact hbase x h
        · exact Or.inr (by omega)
      · rcases b i hi with h | h
        · simp only [List.mem_append, List.mem_singleton] at h
          rcases h with h | h
          · exact Or.inl h
          · exact Or.inr (by omega)
        · exact Or.inr h
    · simp only [h5, if_false]
      obtain ⟨a, b, c, d⟩ := walk_bounds payload todo (p + 1)
        ⟨(lcfs_xdigit_value (payload p)).toNat % 256, st.n_nibbles + 1, st.digest_out⟩
        { acc with iterations := acc.iterations + 1, reads := acc.reads ++ [p] } hn
      refine ⟨fun x hx => ?_, b, by simp only at c; omega, d⟩
      rcases a x hx with h | h
      · exact hbase x h
      · exact Or.inr (by omega)

/-- C12: `lcfs_digest_from_payload` stays inside its buffers and terminates.
For every memory `payload`, every `payload_len` and every output buffer, the
loop reads `*p` only at offsets below `payload_len`, writes `digest_out` only
at indices `n_nibbles / 2 - 1` that lie in `0..31`, runs at most `payload_len`
iterations, and ends with the result that `lcfs_digest_from_payload` has on
the bytes `payload[0 .. payload_len-1]`. -/
theorem digest_from_payload_stays_in_bounds (payload : Nat → Nat) (payload_len : Nat)
    (digest_out : List Nat) :
    (∀ p ∈ (lcfs_digest_walk payload payload_len 0 ⟨0, 0, digest_out⟩ ⟨[], [], 0⟩).2.reads,
      p < payload_len) ∧
    (∀ i ∈ (lcfs_digest_walk payload payload_len 0 ⟨0, 0, digest_out⟩ ⟨[], [], 0⟩).2.writes,
      0 ≤ i ∧ i < 32) ∧
    (lcfs_digest_walk payload payload_len 0 ⟨0, 0, digest_out⟩ ⟨[], [], 0⟩).2.iterations
      ≤ payload_len ∧
    lcfs_digest_finish
        (lcfs_digest_walk payload payload_len 0 ⟨0, 0, digest_out⟩ ⟨[], [], 0⟩).1 =
      lcfs_digest_from_payload ((List.range payload_len).map payload) digest_out := by
  obtain ⟨a, b, c, d⟩ := walk_bounds payload payload_len 0 ⟨0, 0, digest_out⟩ ⟨[], [], 0⟩
    (by show 0 ≤ 64; omega)
  refine ⟨fun p hp => ?_, fun i hi => ?_, by simp only at c; omega, ?_⟩
  · rcases a p hp with h | h
    · simp at h
    · omega
  · rcases b i hi with h | h
    · simp at h
    · exact h
  · rw [d, List.range_eq_range']
    rfl

/-- Witness for C12: on the 70 bytes of the sample payload, followed in memory
by bytes that are hexadecimal digits too, the loop runs 66 iterations (up to
the `'.'`), reads the offsets `0..65` and writes the indices `0..31`. -/
theorem digest_from_payload_stays_in_bounds_witness :
    (lcfs_digest_walk (fun i => sample_payload.getD i 99) 70 0
      ⟨0, 0, List.replicate 32 0⟩ ⟨[], [], 0⟩).2 =
      ⟨List.range 66, (List.range 32).map (fun i => (i : Int)), 66⟩ ∧
    (lcfs_digest_walk (fun i => sample_payload.getD i 99) 70 0
      ⟨0, 0, List.replicate 32 0⟩ ⟨[], [], 0⟩).2.iterations ≤ 70 := by
  have h := digest_from_payload_stays_in_bounds (fun i => sample_payload.getD i 99) 70
    (List.replicate 32 0)
  exact ⟨by decide, h.2.2.1⟩

/-! ### The text of a digest -/

theorem hexchars_nibble (n : Nat) (h : n < 16) : hexchars.getD n 0 = lower_hex n := by
  interval_cases n <;> rfl

theorem lower_hex_value (n : Nat) (h : n < 16) :
    is_hex (lower_hex n) = true ∧ value (lower_hex n) = n ∧ lower_hex n ≠ 0 ∧
    lower_hex n ∈ ascii "0123456789abcdef" := by
  interval_cases n <;> decide

theorem hex_text_length : ∀ d : List Nat, (hex_text d).length = 2 * d.length
  | [] => rfl
  | _ :: d => by simp only [hex_text, List.length_cons, hex_text_length d]; omega

theorem hex_text_chars : ∀ d : List Nat, (∀ b ∈ d, b < 256) → ∀ c ∈ hex_text d,
    is_hex c = true ∧ c ≠ 0 ∧ c ∈ ascii "0123456789abcdef"
  | [], _, c, hc => by simp [hex_text] at hc
  | b :: d, hb, c, hc => by
    have hlt : b < 256 := hb b (by simp)
    simp only [hex_text, List.mem_cons] at hc
    rcases hc with rfl | rfl | hc
    · obtain ⟨h1, _, h3, h4⟩ := lower_hex_value (b / 16) (by omega)
      exact ⟨h1, h3, h4⟩
    · obtain ⟨h1, _, h3, h4⟩ := lower_hex_value (b % 16) (by omega)
      exact ⟨h1, h3, h4⟩
    · exact hex_text_chars d (fun x hx => hb x (by simp [hx])) c hc

theorem decode_hex_text : ∀ d : List Nat, (∀ b ∈ d, b < 256) → decode_pairs (hex_text d) = d
  | [], _ => rfl
  | b :: d, hb => by
    have hlt : b < 256 := hb b (by simp)
    simp only [hex_text, decode_pairs, (lower_hex_value (b / 16) (by omega)).2.1,
      (lower_hex_value (b % 16) (by omega)).2.1,
      decode_hex_text d (fun x hx => hb x (by simp [hx]))]
    congr 1
    omega

theorem c_string_terminated : ∀ (t rest : List Nat), (∀ c ∈ t, c ≠ 0) →
    c_string (t ++ 0 :: rest) = t
  | [], rest, _ => by simp [c_string_zero]
  | a :: t, rest, h => by
    rw [List.cons_append, c_string_cons _ (h a (by simp)),
      c_string_terminated t rest (fun c hc => h c (by simp [hc]))]

theorem to_string_loop : ∀ (n i : Nat) (d pre rest : List Nat), pre.length = 2 * i →
    2 * n + 1 ≤ rest.length → i + n ≤ d.length → (∀ b ∈ d, b < 256) →
    digest_to_string_loop d n i (pre ++ rest) =
      pre ++ hex_text ((d.drop i).take n) ++ 0 :: rest.drop (2 * n + 1)
  | 0, i, d, pre, rest, hpre, hrest, _, _ => by
    obtain ⟨x, rest', rfl⟩ : ∃ x rest', rest = x :: rest' := by
      cases rest with
      | nil => simp at hrest
      | cons x rest' => exact ⟨x, rest', rfl⟩
    simp [digest_to_string_loop, ← hpre, hex_text, List.set_append]
  | n + 1, i, d, pre, rest, hpre, hrest, hd, hb => by
    obtain ⟨x, y, rest', rfl⟩ : ∃ x y rest', rest = x :: y :: rest' := by
      match rest, hrest with
      | x :: y :: rest', _ => exact ⟨x, y, rest', rfl⟩
    have hi : i < d.length := by omega
    have hget : d.getD i 0 = d[i] := by
      rw [List.getD_eq_getElem?_getD, List.getElem?_eq_getElem hi]; rfl
    have hlt : d[i] < 256 := hb _ (List.getElem_mem hi)
    have hdrop : d.drop i = d[i] :: d.drop (i + 1) := List.drop_eq_getElem_cons hi
    have hs : d[i] >>> 4 = d[i] / 16 := by rw [Nat.shiftRight_eq_div_pow]
    have hm : d[i] &&& 0xF = d[i] % 16 := by
      have : (0xF : Nat) = 2 ^ 4 - 1 := by norm_num
      rw [this, Nat.and_pow_two_sub_one_eq_mod]
    rw [digest_to_string_loop]
    simp only [hget, Nat.mod_eq_of_lt hlt, hs, hm, hexchars_nibble _ (by omega : d[i] / 16 < 16),
      hexchars_nibble _ (Nat.mod_lt _ (by norm_num : 16 > 0))]
    have hset : ((pre ++ x :: y :: rest').set (2 * i) (lower_hex (d[i] / 16))).set (2 * i + 1)
        (lower_hex (d[i] % 16)) =
        (pre ++ [lower_hex (d[i] / 16), lower_hex (d[i] % 16)]) ++ rest' := by
      simp [← hpre, List.set_append]
    rw [hset, to_string_loop n (i + 1) d (pre ++ [lower_hex (d[i] / 16), lower_hex (d[i] % 16)])
      rest' (by simp only [List.length_append, List.length_cons, List.length_nil]; omega)
      (by simp only [List.length_cons] at hrest; omega) (by omega) hb, hdrop]
    have e : 2 * (n + 1) + 1 = (2 * n + 1) + 1 + 1 := by omega
    simp only [List.take_succ_cons, hex_text, e, List.drop_succ_cons, List.append_assoc,
      List.cons_append, List.nil_append]

theorem digest_to_string_eq (d buf : List Nat) (hd : d.length = 32) (hb : ∀ b ∈ d, b < 256)
    (hbuf : buf.length = 65) : digest_to_string d buf = hex_text d ++ [0] := by
  have h := to_string_loop 32 0 d [] buf rfl (by omega) (by omega) hb
  have hdrop : buf.drop (2 * 32 + 1) = [] := List.drop_eq_nil_of_le (by omega)
  have htake : (d.drop 0).take 32 = d := by
    rw [List.drop_zero]; exact List.take_of_length_le (by omega)
  rw [hdrop, htake] at h
  simpa [digest_to_string, LCFS_DIGEST_SIZE] using h

theorem c_string_hex_text (d rest : List Nat) (hb : ∀ b ∈ d, b < 256) :
    c_string (hex_text d ++ 0 :: rest) = hex_text d ∧ c_string (hex_text d) = hex_text d := by
  have hnz : ∀ c ∈ hex_text d, c ≠ 0 := fun c hc => (hex_text_chars d hb c hc).2.1
  refine ⟨c_string_terminated _ _ hnz, ?_⟩
  unfold c_string
  rw [List.takeWhile_eq_self_iff]
  intro c hc
  simpa using hnz c hc

/-- C13: the hexadecimal text of a digest round-trips.  For every digest `d` of
32 bytes, `digest_to_string` fills the 65-byte buffer with 64 characters of
`0123456789abcdef` followed by a NUL; `digest_from_string` on that string
returns 0 and gives `d` back byte for byte; `cfs_show_options` prints that
text after `,digest=`; and `cfs_parse_param` accepts it as the `digest=`
option, storing `d` and setting `has_digest`. -/
theorem digest_text_round_trips (d buf out : List Nat) (fsi : cfs_info) (boolean : Bool)
    (hd : d.length = 32) (hb : ∀ b ∈ d, b < 256) (hbuf : buf.length = 65)
    (hout : out.length = 32) (hfsi : fsi.digest.length = 32) :
    (digest_to_string d buf).length = 65 ∧
    (digest_to_string d buf)[64]? = some 0 ∧
    (∀ k, k < 64 → ∃ c ∈ ascii "0123456789abcdef", (digest_to_string d buf)[k]? = some c) ∧
    digest_from_string (digest_to_string d buf) out = (0, d) ∧
    cfs_show_options { fsi with has_digest := true, digest := d } buf =
      (0, (cfs_show_options { fsi with has_digest := false, digest := d } buf).2 ++
        ascii ",digest=" ++ c_string (digest_to_string d buf)) ∧
    cfs_parse_param fsi ⟨Opt_digest, boolean⟩ (some (c_string (digest_to_string d buf))) =
      (0, { fsi with digest := d, has_digest := true },
        some (c_string (digest_to_string d buf))) := by
  have hs := digest_to_string_eq d buf hd hb hbuf
  have hlen : (hex_text d).length = 64 := by rw [hex_text_length, hd]
  have hc := c_string_hex_text d [] hb
  have hchars := hex_text_chars d hb
  have hparse : ∀ o : List Nat, o.length = 32 → ∀ s : List Nat, c_string s = hex_text d →
      digest_from_string s o = (0, d) := by
    intro o ho s hcs
    rw [digest_from_string_out s o ho (by rw [hcs, hlen])
      (fun c hcm => (hchars c (by rw [← hcs]; exact hcm)).1), hcs, decode_hex_text d hb]
  rw [hs, hc.1]
  refine ⟨by rw [List.length_append, hlen]; rfl, ?_, ?_, hparse out hout _ hc.1, ?_, ?_⟩
  · rw [List.getElem?_append_right (by omega), hlen]; rfl
  · intro k hk
    have hk' : k < (hex_text d).length := by omega
    refine ⟨(hex_text d)[k], (hchars _ (List.getElem_mem hk')).2.2, ?_⟩
    rw [List.getElem?_append_left hk', List.getElem?_eq_getElem hk']
  · simp [cfs_show_options, printf_s, hs, hc.1]
  · have h := hparse fsi.digest hfsi (hex_text d) hc.2
    simp [cfs_parse_param, Opt_digest, Opt_descriptor_file, Opt_base_path, h]

/-- Witness for C13: the digest `0, 1, ..., 31` is printed as `000102...1f`,
which is the sample option value, and that value is parsed back to the same
bytes. -/
theorem digest_text_round_trips_witness :
    digest_to_string (List.range 32) (List.replicate 65 255) = sample_digest_string ++ [0] ∧
    digest_from_string (digest_to_string (List.range 32) (List.replicate 65 255))
      (List.replicate 32 0) = (0, List.range 32) ∧
    (cfs_show_options { sample_fsi with has_digest := true, digest := List.range 32 }
      (List.replicate 65 255)).2 =
      ascii ",descriptor=(null),digest=" ++ sample_digest_string := by
  have h := digest_text_round_trips (List.range 32) (List.replicate 65 255)
    (List.replicate 32 0) { sample_fsi with digest := List.replicate 32 0 } false
    (by decide) (by decide) (by rw [List.length_replicate]) (by decide) (by decide)
  exact ⟨by decide, h.2.2.2.1, by decide⟩

/-! ### The two digest parsers -/

theorem c_string_of_no_nul (s : List Nat) (h : 0 ∉ s) : c_string s = s := by
  unfold c_string
  rw [List.takeWhile_eq_self_iff]
  intro c hc
  have : c ≠ 0 := fun h0 => h (h0 ▸ hc)
  simpa using this

theorem payload_digits_of_plain (s : List Nat) (hslash : 47 ∉ s) (hdot : 46 ∉ s) :
    payload_digits s = s := by
  unfold payload_digits
  have h1 : s.takeWhile (fun c => c ≠ 46) = s := by
    rw [List.takeWhile_eq_self_iff]
    intro c hc
    have : c ≠ 46 := fun h0 => hdot (h0 ▸ hc)
    simpa using this
  rw [h1, List.filter_eq_self]
  intro c hc
  have : c ≠ 47 := fun h0 => hslash (h0 ▸ hc)
  simpa using this

/-- C14: the two digest parsers agree on plain hex strings.  For a string
without NUL, `'/'` and `'.'`, `digest_from_string` returns 0 exactly when
`lcfs_digest_from_payload` on the same bytes returns 0, and then both leave
the same 32 bytes; and `xdigit_value` and `lcfs_xdigit_value` give the same
value for every character. -/
theorem digest_parsers_agree (s out₁ out₂ : List Nat) (c : Nat) (hnul : 0 ∉ s)
    (hslash : 47 ∉ s) (hdot : 46 ∉ s) (h₁ : out₁.length = 32) (h₂ : out₂.length = 32) :
    ((digest_from_string s out₁).1 = 0 ↔ (lcfs_digest_from_payload s out₂).ret = 0) ∧
    ((digest_from_string s out₁).1 = 0 →
      (digest_from_string s out₁).2 = (lcfs_digest_from_payload s out₂).digest_out) ∧
    xdigit_value c = lcfs_xdigit_value c := by
  have hcs := c_string_of_no_nul s hnul
  have hpd := payload_digits_of_plain s hslash hdot
  have hiff : (digest_from_string s out₁).1 = 0 ↔ (lcfs_digest_from_payload s out₂).ret = 0 := by
    rw [(digest_from_string_ret s out₁).1, payload_ret_zero_iff, hcs, hpd]
  refine ⟨hiff, fun h0 => ?_, rfl⟩
  obtain ⟨hl, hh⟩ := (digest_from_string_ret s out₁).1.1 h0
  rw [digest_from_string_out s out₁ h₁ hl hh]
  rw [hcs] at hl hh ⊢
  rw [payload_success s out₂ h₂ (by rw [hpd]; exact hl) (by rw [hpd]; exact hh), hpd]

/-- Witness for C14: both parsers accept the sample option value and give the
bytes `0, 1, ..., 31`, and both refuse it once its first character is `g`. -/
theorem digest_parsers_agree_witness :
    (digest_from_string sample_digest_string (List.replicate 32 0)).1 = 0 ∧
    (lcfs_digest_from_payload sample_digest_string (List.replicate 32 9)).ret = 0 ∧
    (digest_from_string sample_digest_string (List.replicate 32 0)).2 =
      (lcfs_digest_from_payload sample_digest_string (List.replicate 32 9)).digest_out ∧
    (digest_from_string (103 :: sample_digest_string.tail) (List.replicate 32 0)).1 ≠ 0 ∧
    (lcfs_digest_from_payload (103 :: sample_digest_string.tail) (List.replicate 32 9)).ret
      ≠ 0 := by
  have h := digest_parsers_agree sample_digest_string (List.replicate 32 0)
    (List.replicate 32 9) 97 (by decide) (by decide) (by decide) (by decide) (by decide)
  have h0 : (digest_from_string sample_digest_string (List.replicate 32 0)).1 = 0 := by decide
  exact ⟨h0, h.1.1 h0, h.2.1 h0, by decide, by decide⟩

/-! ### Link counts -/

theorem fill_inode_nlink (vfs : vfs_env) (c : cfs_inode) (ino_num : Nat) (ino : lcfs_inode_s)
    (tl rp : Option (List Nat)) (xa : Option lcfs_xattr_header_s) (dd : Option lcfs_dir_s)
    (dg : Option (List Nat)) (cino : cfs_inode)
    (h : cfs_fill_inode vfs c ino_num ino tl rp xa dd dg = .ok cino) :
    cino.vfs_inode.i_nlink = ino.st_nlink ∧ cino.dir = dd := by
  unfold cfs_fill_inode at h
  simp only at h
  split_ifs at h <;> first
    | (injection h with h; subst h; cases dg <;> exact ⟨rfl, rfl⟩)
    | (injection h with h; subst h; simp only [init_special_inode]
       split_ifs <;> cases dg <;> exact ⟨rfl, rfl⟩)

theorem make_inode_nlink (rd : lcfs_reader) (vfs : vfs_env) (ino_num : Nat) (ino : lcfs_inode_s)
    (cino : cfs_inode) (h : cfs_make_inode rd vfs ino_num ino = .ok cino) :
    (ino.st_mode &&& S_IFMT = S_IFDIR →
      cino.vfs_inode.i_nlink =
        rd.lcfs_dir_get_link_count (rd.lcfs_get_dir ino ino_num).toOption ∧
      cino.dir = (rd.lcfs_get_dir ino ino_num).toOption) ∧
    (ino.st_mode &&& S_IFMT ≠ S_IFDIR → cino.vfs_inode.i_nlink = ino.st_nlink) := by
  unfold cfs_make_inode at h
  split at h
  · exact absurd h (by simp)
  split at h
  · exact absurd h (by simp)
  split at h
  · exact absurd h (by simp)
  simp only at h
  split at h
  · exact absurd h (by simp)
  split at h
  · exact absurd h (by simp)
  split at h
  · exact absurd h (by simp)
  · rename_i hfill
    injection h with h
    subst h
    have hf := fill_inode_nlink _ _ _ _ _ _ _ _ _ _ hfill
    constructor
    · intro hdir
      simp only [hdir, if_true] at hf
      exact hf
    · intro hdir
      simp only [hdir, if_false] at hf
      exact hf.1

/-- C15: a directory's link count is not taken from the stored record.  An
inode that `cfs_make_inode` makes from a directory record has the link count
`lcfs_dir_get_link_count` of the entry table decoded for it, so a record that
differs only in `st_nlink`, with the same decoded table, makes the same inode;
an inode made from any other record has the record's `st_nlink`. -/
theorem directory_link_count_is_computed (rd : lcfs_reader) (vfs : vfs_env) (ino_num : Nat)
    (ino : lcfs_inode_s) (st_nlink : Nat) :
    (∀ cino, cfs_make_inode rd vfs ino_num ino = .ok cino →
      ino.st_mode &&& S_IFMT = S_IFDIR →
      cino.vfs_inode.i_nlink =
        rd.lcfs_dir_get_link_count (rd.lcfs_get_dir ino ino_num).toOption ∧
      cino.dir = (rd.lcfs_get_dir ino ino_num).toOption) ∧
    (ino.st_mode &&& S_IFMT = S_IFDIR →
      rd.lcfs_get_dir { ino with st_nlink := st_nlink } ino_num = rd.lcfs_get_dir ino ino_num →
      cfs_make_inode rd vfs ino_num { ino with st_nlink := st_nlink } =
        cfs_make_inode rd vfs ino_num ino) ∧
    (∀ cino, cfs_make_inode rd vfs ino_num ino = .ok cino →
      ino.st_mode &&& S_IFMT ≠ S_IFDIR → cino.vfs_inode.i_nlink = ino.st_nlink) := by
  refine ⟨fun cino h => (make_inode_nlink rd vfs ino_num ino cino h).1, ?_,
    fun cino h => (make_inode_nlink rd vfs ino_num ino cino h).2⟩
  intro hdir hsame
  have h1 : ¬ (S_IFDIR = S_IFLNK) := by decide
  have h2 : ¬ (S_IFDIR = S_IFREG) := by decide
  simp only [cfs_make_inode, hdir, h1, h2, if_false, if_true, false_and, hsame]

/-- Witness for C15: in the sample image a directory record is made into an
inode with link count 4 (two subdirectories), whether the record stores 1 or
77; a regular-file record keeps its stored count. -/
theorem directory_link_count_is_computed_witness :
    (∀ cino, cfs_make_inode sample_dir_reader sample_vfs 3 (sample_dir_record 77) = .ok cino →
      cino.vfs_inode.i_nlink = 4) ∧
    cfs_make_inode sample_dir_reader sample_vfs 3 (sample_dir_record 1) =
      cfs_make_inode sample_dir_reader sample_vfs 3 (sample_dir_record 77) ∧
    (cfs_make_inode sample_dir_reader sample_vfs 3 (sample_dir_record 77)).toOption.map
      (fun c => c.vfs_inode.i_nlink) = some 4 := by
  have h := directory_link_count_is_computed sample_dir_reader sample_vfs 3
    (sample_dir_record 77) 1
  refine ⟨fun cino hc => ?_, h.2.1 (by decide) rfl, by decide⟩
  rw [(h.1 cino hc (by decide)).1]
  decide

/-! ### The readdir cursor -/

theorem iterate_cb_spec (actor : dir_context → dirent → Bool) (ctx : dir_context) (e : dirent) :
    (cfs_iterate_cb actor ctx e).1 = (dir_emit actor ctx e).1 ∧
    ((dir_emit actor ctx e).1 = true → (cfs_iterate_cb actor ctx e).2.pos = ctx.pos + 1) ∧
    ((dir_emit actor ctx e).1 = false → (cfs_iterate_cb actor ctx e).2 = ctx) := by
  unfold cfs_iterate_cb dir_emit
  cases h : actor ctx e <;> simp

theorem run_callbacks_pos (actor : dir_context → dirent → Bool) : ∀ (es : List dirent)
    (ctx : dir_context),
    (run_callbacks actor es ctx).2.pos = ctx.pos + ((run_callbacks actor es ctx).1.count true)
  | [], ctx => by simp [run_callbacks]
  | e :: es, ctx => by
    obtain ⟨h1, h2, h3⟩ := iterate_cb_spec actor ctx e
    have ih := run_callbacks_pos actor es (cfs_iterate_cb actor ctx e).2
    simp only [run_callbacks]
    rw [ih, h1]
    cases hd : (dir_emit actor ctx e).1 with
    | true =>
      rw [h2 hd, List.count_cons_self]
      push_cast
      omega
    | false =>
      rw [h3 hd, List.count_cons_of_ne (by decide)]

theorem emit_dots_pos (actor : dir_context → dirent → Bool) (a b : Nat) (ctx : dir_context)
    (hpos : 0 ≤ ctx.pos) (hok : (dir_emit_dots actor a b ctx).1 = true) :
    (dir_emit_dots actor a b ctx).2.pos = max ctx.pos 2 := by
  unfold dir_emit_dots dir_emit at hok ⊢
  by_cases h0 : ctx.pos = 0
  · simp only [h0, if_true] at hok ⊢
    cases ha : actor ctx ⟨[46], a, DT_DIR⟩
    · simp [ha] at hok
    · simp only [ha, if_true] at hok ⊢
      split_ifs at hok ⊢ <;> simp_all
  · simp only [h0, if_false] at hok ⊢
    by_cases h1 : ctx.pos = 1
    · simp only [h1, if_true] at hok ⊢
      split_ifs at hok ⊢ <;> simp_all
    · simp only [h1, if_false] at hok ⊢
      simp only [Bool.true_eq_false, if_false]
      omega

/-- C16: the readdir cursor counts exactly the entries delivered.
`cfs_iterate_cb` returns what `dir_emit` returned, adds 1 to `ctx->pos` when
the entry was accepted and leaves the context as it was when it was refused;
so after any sequence of callbacks `ctx->pos` is its starting value plus the
number of accepted entries; and `cfs_iterate`, once `.` and `..` are out,
calls `lcfs_dir_iterate` with the callback `cfs_iterate_cb` and the first
index `ctx->pos - 2`, which from a cursor `p >= 0` is `max p 2 - 2`. -/
theorem readdir_cursor_counts_entries (env : readdir_env) (cino : cfs_inode)
    (ctx : dir_context) (e : dirent) (es : List dirent) :
    (cfs_iterate_cb env.actor ctx e).1 = (dir_emit env.actor ctx e).1 ∧
    ((dir_emit env.actor ctx e).1 = true →
      (cfs_iterate_cb env.actor ctx e).2.pos = ctx.pos + 1) ∧
    ((dir_emit env.actor ctx e).1 = false → (cfs_iterate_cb env.actor ctx e).2 = ctx) ∧
    (run_callbacks env.actor es ctx).2.pos =
      ctx.pos + ((run_callbacks env.actor es ctx).1.count true) ∧
    ((dir_emit_dots env.actor env.dot_ino env.dotdot_ino ctx).1 = true →
      (cfs_iterate env cino ctx).first =
        some ((dir_emit_dots env.actor env.dot_ino env.dotdot_ino ctx).2.pos - 2) ∧
      (cfs_iterate env cino ctx).ret =
        (env.lcfs_dir_iterate cino.dir
          ((dir_emit_dots env.actor env.dot_ino env.dotdot_ino ctx).2.pos - 2)
          (cfs_iterate_cb env.actor)
          (dir_emit_dots env.actor env.dot_ino env.dotdot_ino ctx).2).1 ∧
      (0 ≤ ctx.pos → (cfs_iterate env cino ctx).first = some (max ctx.pos 2 - 2))) ∧
    ((dir_emit_dots env.actor env.dot_ino env.dotdot_ino ctx).1 = false →
      (cfs_iterate env cino ctx).first = none ∧ (cfs_iterate env cino ctx).ret = 0) := by
  obtain ⟨h1, h2, h3⟩ := iterate_cb_spec env.actor ctx e
  refine ⟨h1, h2, h3, run_callbacks_pos env.actor es ctx, fun hok => ?_, fun hno => ?_⟩
  · have hfirst : (cfs_iterate env cino ctx).first =
        some ((dir_emit_dots env.actor env.dot_ino env.dotdot_ino ctx).2.pos - 2) := by
      simp [cfs_iterate, hok]
    refine ⟨hfirst, by simp [cfs_iterate, hok], fun hpos => ?_⟩
    rw [hfirst, emit_dots_pos env.actor env.dot_ino env.dotdot_ino ctx hpos hok]
  · simp [cfs_iterate, hno]

/-- Witness for C16: in the sample directory of three entries, read from
cursor 0 into a buffer with room for four entries, `.`, `..` and two entries
are delivered and the cursor ends at 4; the next call, from cursor 4, resumes
at entry index 2 and ends at 5. -/
theorem readdir_cursor_counts_entries_witness :
    (cfs_iterate (sample_readdir 4) { blank_inode with dir := some sample_dir } ⟨0, []⟩).first
      = some 0 ∧
    (cfs_iterate (sample_readdir 4) { blank_inode with dir := some sample_dir } ⟨0, []⟩).ctx.pos
      = 4 ∧
    (cfs_iterate (sample_readdir 4) { blank_inode with dir := some sample_dir } ⟨4, []⟩).first
      = some 2 ∧
    (cfs_iterate (sample_readdir 4) { blank_inode with dir := some sample_dir } ⟨4, []⟩).ctx.pos
      = 5 ∧
    (run_callbacks (sample_actor 2) [⟨[97], 5, 4⟩, ⟨[98], 6, 8⟩, ⟨[99], 7, 4⟩] ⟨2, []⟩) =
      ([true, true, false], ⟨4, [⟨[97], 5, 4⟩, ⟨[98], 6, 8⟩]⟩) := by
  have h := readdir_cursor_counts_entries (sample_readdir 4)
    { blank_inode with dir := some sample_dir } ⟨0, []⟩ ⟨[97], 5, 4⟩ []
  exact ⟨(h.2.2.2.2.1 (by decide)).2.2 (by decide), by decide, by decide, by decide, by decide⟩

/-! ### Alignment -/

theorem and_not_low_bits (w k x : Nat) (hk : k ≤ w) (hx : x < 2 ^ w) :
    x &&& (2 ^ w - ((2 ^ k - 1) + 1)) = x / 2 ^ k * 2 ^ k := by
  have hlt : 2 ^ k - 1 < 2 ^ w :=
    Nat.lt_of_lt_of_le (Nat.sub_lt (Nat.two_pow_pos k) (by norm_num))
      (Nat.pow_le_pow_right (by norm_num) hk)
  apply Nat.eq_of_testBit_eq
  intro i
  rw [Nat.testBit_and, Nat.testBit_two_pow_sub_succ hlt, Nat.testBit_two_pow_sub_one,
    Nat.mul_comm, Nat.testBit_mul_pow_two, ← Nat.shiftRight_eq_div_pow, Nat.testBit_shiftRight]
  by_cases hik : i < k
  · have : ¬ i ≥ k := by omega
    simp [hik, this]
  · have hge : i ≥ k := by omega
    have hadd : k + (i - k) = i := by omega
    by_cases hiw : i < w
    · simp [hik, hge, hiw, hadd]
    · have hxi : x.testBit i = false :=
        Nat.testBit_lt_two_pow (Nat.lt_of_lt_of_le hx (Nat.pow_le_pow_right (by norm_num)
          (by omega)))
      simp [hik, hge, hiw, hadd, hxi]

theorem or_low_bits (k y : Nat) : y ||| (2 ^ k - 1) = y / 2 ^ k * 2 ^ k + (2 ^ k - 1) := by
  have hlt : 2 ^ k - 1 < 2 ^ k := Nat.sub_lt (Nat.two_pow_pos k) (by norm_num)
  rw [Nat.mul_comm, Nat.mul_add_lt_is_or hlt]
  apply Nat.eq_of_testBit_eq
  intro i
  rw [Nat.testBit_or, Nat.testBit_or, Nat.testBit_two_pow_sub_one, Nat.testBit_mul_pow_two,
    ← Nat.shiftRight_eq_div_pow, Nat.testBit_shiftRight]
  by_cases hik : i < k
  · simp [hik]
  · have hge : i ≥ k := by omega
    have hadd : k + (i - k) = i := by omega
    simp [hik, hge, hadd]

theorem usub_one (w x : Nat) (h1 : 1 ≤ x) (hx : x ≤ 2 ^ w) (hw : 1 < 2 ^ w) :
    usub w (x % 2 ^ w) 1 = x - 1 := by
  unfold usub
  rw [Nat.mod_mod, Nat.mod_eq_of_lt hw]
  rcases Nat.lt_or_eq_of_le hx with h | h
  · rw [Nat.mod_eq_of_lt h]
    have e : x + (2 ^ w - 1) = (x - 1) + 2 ^ w := by omega
    rw [e, Nat.add_mod_right, Nat.mod_eq_of_lt (by omega)]
  · rw [h, Nat.mod_self, Nat.zero_add, Nat.mod_eq_of_lt (by omega)]

theorem usub_zero_one (w : Nat) (hw : 1 < 2 ^ w) : usub w 0 1 = 2 ^ w - 1 := by
  unfold usub
  rw [Nat.zero_mod, Nat.zero_add, Nat.mod_eq_of_lt hw, Nat.mod_eq_of_lt (by omega)]

theorem pow_facts (w k : Nat) (hk : k < w) : 1 ≤ 2 ^ k ∧ 2 ^ k < 2 ^ w ∧ 1 < 2 ^ w := by
  have h1 : 1 ≤ 2 ^ k := Nat.two_pow_pos k
  have h2 : 2 ^ k < 2 ^ w := Nat.pow_lt_pow_right (by norm_num) hk
  exact ⟨h1, h2, by omega⟩

theorem mask_eq (w k : Nat) (hk : k < w) :
    usub w (2 ^ k) 1 = 2 ^ k - 1 ∧ unot w (2 ^ k - 1) = 2 ^ w - ((2 ^ k - 1) + 1) := by
  obtain ⟨h1, h2, h3⟩ := pow_facts w k hk
  have hm := usub_one w (2 ^ k) h1 (by omega) h3
  rw [Nat.mod_eq_of_lt h2] at hm
  refine ⟨hm, ?_⟩
  unfold unot
  rw [Nat.mod_eq_of_lt (by omega)]
  omega

theorem align_to_eq (w k o : Nat) (hk : k < w) (ho : o + 2 ^ k - 1 < 2 ^ w) :
    ALIGN_TO w o (2 ^ k) = (o + 2 ^ k - 1) / 2 ^ k * 2 ^ k := by
  obtain ⟨h1, h2, h3⟩ := pow_facts w k hk
  obtain ⟨hm, hn⟩ := mask_eq w k hk
  have hs : usub w (uadd w o (2 ^ k)) 1 = o + 2 ^ k - 1 :=
    usub_one w (o + 2 ^ k) (by omega) (by omega) h3
  unfold ALIGN_TO
  rw [hs, hm, hn]
  exact and_not_low_bits w k _ (by omega) ho

theorem round_down_eq (w k o : Nat) (hk : k < w) (ho : o < 2 ^ w) :
    round_down w o (2 ^ k) = o / 2 ^ k * 2 ^ k := by
  obtain ⟨h1, h2, h3⟩ := pow_facts w k hk
  obtain ⟨hm, hn⟩ := mask_eq w k hk
  unfold round_down __round_mask
  rw [hm, Nat.mod_eq_of_lt (by omega), hn]
  exact and_not_low_bits w k _ (by omega) ho

theorem round_up_eq (w k o : Nat) (hk : k < w) (ho : o + 2 ^ k - 1 < 2 ^ w) :
    round_up w o (2 ^ k) = (o + 2 ^ k - 1) / 2 ^ k * 2 ^ k := by
  obtain ⟨h1, h2, h3⟩ := pow_facts w k hk
  obtain ⟨hm, _⟩ := mask_eq w k hk
  unfold round_up __round_mask
  rw [hm, Nat.mod_eq_of_lt (by omega : 2 ^ k - 1 < 2 ^ w)]
  rcases Nat.eq_zero_or_pos o with h0 | hpos
  · subst h0
    rw [usub_zero_one w h3]
    have hor : (2 ^ w - 1) ||| (2 ^ k - 1) = 2 ^ w - 1 := by
      apply Nat.eq_of_testBit_eq
      intro i
      rw [Nat.testBit_or, Nat.testBit_two_pow_sub_one, Nat.testBit_two_pow_sub_one]
      by_cases hi : i < k
      · have : i < w := by omega
        simp [hi, this]
      · simp [hi]
    have hdiv : (0 + 2 ^ k - 1) / 2 ^ k = 0 := Nat.div_eq_of_lt (by omega)
    unfold uadd
    rw [hor, hdiv, Nat.zero_mul, show 2 ^ w - 1 + 1 = 2 ^ w by omega, Nat.mod_self]
  · have hs : usub w o 1 = o - 1 := by
      have h := usub_one w o hpos (by omega) h3
      rwa [Nat.mod_eq_of_lt (by omega)] at h
    have hle : (o - 1) / 2 ^ k * 2 ^ k ≤ o - 1 := Nat.div_mul_le_self _ _
    have hdiv : (o + 2 ^ k - 1) / 2 ^ k = (o - 1) / 2 ^ k + 1 := by
      rw [show o + 2 ^ k - 1 = (o - 1) + 2 ^ k by omega, Nat.add_div_right _ (by omega)]
    unfold uadd
    rw [hs, or_low_bits, hdiv, Nat.add_mul, Nat.one_mul, Nat.mod_eq_of_lt (by omega)]
    omega

theorem ceil_multiple (a o : Nat) (ha : 0 < a) :
    a ∣ (o + a - 1) / a * a ∧ o ≤ (o + a - 1) / a * a ∧ (o + a - 1) / a * a ≤ o + a - 1 ∧
    (∀ m, a ∣ m → o ≤ m → (o + a - 1) / a * a ≤ m) := by
  have hdm := Nat.div_add_mod (o + a - 1) a
  have hlt := Nat.mod_lt (o + a - 1) ha
  have hc : (o + a - 1) / a * a = a * ((o + a - 1) / a) := Nat.mul_comm _ _
  refine ⟨Nat.dvd_mul_left _ _, by omega, by omega, ?_⟩
  rintro m ⟨c, rfl⟩ hle
  have hq : (o + a - 1) / a ≤ c := by
    have h1 : (o + a - 1) / a ≤ (a * c + (a - 1)) / a := Nat.div_le_div_right (by omega)
    have h2 : (a * c + (a - 1)) / a = c := by
      rw [Nat.mul_add_div ha, Nat.div_eq_of_lt (by omega), Nat.add_zero]
    omega
  rw [Nat.mul_comm a c]
  exact Nat.mul_le_mul_right a hq

theorem floor_multiple (a o : Nat) (ha : 0 < a) :
    a ∣ o / a * a ∧ o / a * a ≤ o ∧ (∀ m, a ∣ m → m ≤ o → m ≤ o / a * a) := by
  refine ⟨Nat.dvd_mul_left _ _, Nat.div_mul_le_self _ _, ?_⟩
  rintro m ⟨c, rfl⟩ hle
  have hq : c ≤ o / a := (Nat.le_div_iff_mul_le ha).2 (by rw [Nat.mul_comm]; exact hle)
  rw [Nat.mul_comm a c]
  exact Nat.mul_le_mul_right a hq

theorem multiple_room (w k r : Nat) (hk : k < w) (hdvd : 2 ^ k ∣ r) (hr : r < 2 ^ w) :
    r + 2 ^ k - 1 < 2 ^ w := by
  obtain ⟨q, rfl⟩ := hdvd
  have hP : 2 ^ w = 2 ^ k * 2 ^ (w - k) := by
    rw [← Nat.pow_add]; congr 1; omega
  have h1 : 1 ≤ 2 ^ k := Nat.two_pow_pos k
  rw [hP] at hr ⊢
  have hq : q < 2 ^ (w - k) := Nat.lt_of_mul_lt_mul_left hr
  have hle : 2 ^ k * (q + 1) ≤ 2 ^ k * 2 ^ (w - k) := Nat.mul_le_mul_left _ hq
  rw [Nat.mul_add, Nat.mul_one] at hle
  omega

/-- C17: for an offset and a power-of-two alignment `a = 2^k` of the same
unsigned width `w`, with `offset + a - 1` not overflowing, `ALIGN_TO(offset, a)`
is the least multiple of `a` that is at least `offset` (so the padding is in
`0..a-1`, and `ALIGN_TO` is idempotent), `round_up(offset, a)` is the same
number, and `round_down(offset, a)` is the greatest multiple of `a` that is at
most `offset`. -/
theorem align_to_least_multiple (w k offset : Nat) (hk : k < w)
    (ho : offset + 2 ^ k - 1 < 2 ^ w) :
    2 ^ k ∣ ALIGN_TO w offset (2 ^ k) ∧
    offset ≤ ALIGN_TO w offset (2 ^ k) ∧
    (∀ m, 2 ^ k ∣ m → offset ≤ m → ALIGN_TO w offset (2 ^ k) ≤ m) ∧
    ALIGN_TO w offset (2 ^ k) - offset < 2 ^ k ∧
    ALIGN_TO w (ALIGN_TO w offset (2 ^ k)) (2 ^ k) = ALIGN_TO w offset (2 ^ k) ∧
    round_up w offset (2 ^ k) = ALIGN_TO w offset (2 ^ k) ∧
    2 ^ k ∣ round_down w offset (2 ^ k) ∧
    round_down w offset (2 ^ k) ≤ offset ∧
    (∀ m, 2 ^ k ∣ m → m ≤ offset → m ≤ round_down w offset (2 ^ k)) := by
  obtain ⟨h1, h2, h3⟩ := pow_facts w k hk
  obtain ⟨c1, c2, c3, c4⟩ := ceil_multiple (2 ^ k) offset h1
  obtain ⟨f1, f2, f3⟩ := floor_multiple (2 ^ k) offset h1
  have ha := align_to_eq w k offset hk ho
  have hidem : ALIGN_TO w (ALIGN_TO w offset (2 ^ k)) (2 ^ k) = ALIGN_TO w offset (2 ^ k) := by
    rw [ha]
    have hroom := multiple_room w k _ hk c1 (by omega)
    rw [align_to_eq w k _ hk hroom]
    obtain ⟨q, hq⟩ := c1
    rw [hq, show 2 ^ k * q + 2 ^ k - 1 = 2 ^ k * q + (2 ^ k - 1) by omega,
      Nat.mul_add_div h1, Nat.div_eq_of_lt (by omega), Nat.add_zero, Nat.mul_comm]
  rw [round_up_eq w k offset hk ho, round_down_eq w k offset hk (by omega)]
  rw [ha] at hidem ⊢
  exact ⟨c1, c2, c4, by omega, hidem, rfl, f1, f2, f3⟩

/-- Witness for C17: with 32-bit operands, offset 13 is aligned to 16 for the
alignment 8 (3 bytes of padding) and rounded down to 8; offset 16 stays 16;
and offset 0 stays 0 although `round_up` wraps twice on the way. -/
theorem align_to_least_multiple_witness :
    ALIGN_TO 32 13 8 = 16 ∧ round_up 32 13 8 = 16 ∧ round_down 32 13 8 = 8 ∧
    ALIGN_TO 32 16 8 = 16 ∧ round_up 32 0 8 = 0 ∧
    ALIGN_TO 32 13 (2 ^ 3) - 13 < 2 ^ 3 := by
  have h := align_to_least_multiple 32 3 13 (by decide) (by decide)
  exact ⟨by decide, by decide, by decide, by decide, by decide, h.2.2.2.1⟩

/-! ### The flag constants -/

theorem fold_or_testBit (k : Nat) : ∀ (s : List Nat) (acc : Nat),
    (s.foldl (fun acc f => acc ||| f) acc).testBit k =
      (acc.testBit k || s.any (fun f => f.testBit k))
  | [], acc => by simp
  | f :: s, acc => by
    rw [List.foldl_cons, fold_or_testBit k s, Nat.testBit_or, List.any_cons, Bool.or_assoc]

theorem flags_are_bits : lcfs_inode_flags = (List.range 12).map (fun k => 2 ^ k) := by decide

theorem flag_mem_iff (x : Nat) : x ∈ lcfs_inode_flags ↔ ∃ j, j < 12 ∧ x = 2 ^ j := by
  rw [flags_are_bits, List.mem_map]
  constructor
  · rintro ⟨j, hj, rfl⟩; exact ⟨j, List.mem_range.1 hj, rfl⟩
  · rintro ⟨j, hj, rfl⟩; exact ⟨j, List.mem_range.2 hj, rfl⟩

/-- C18: the twelve inode flag constants are the single bits 0 to 11, in the
order PAYLOAD, MODE, NLINK, UIDGID, RDEV, TIMES, TIMES_NSEC, LOW_SIZE,
HIGH_SIZE, XATTRS, DIGEST, DIGEST_FROM_PAYLOAD, pairwise distinct, and
`LCFS_INODE_FLAGS_NONE` is 0; hence for a set `S` of these flags and a flag
`X`, `LCFS_INODE_FLAG_CHECK` on the bitwise OR of `S` is true exactly when `X`
is in `S`. -/
theorem flag_check_tests_membership (s : List Nat) (x : Nat)
    (hs : ∀ f ∈ s, f ∈ lcfs_inode_flags) (hx : x ∈ lcfs_inode_flags) :
    lcfs_inode_flags = (List.range 12).map (fun k => 2 ^ k) ∧
    lcfs_inode_flags.Nodup ∧
    LCFS_INODE_FLAGS_NONE = 0 ∧
    (LCFS_INODE_FLAG_CHECK (flags_or s) x = true ↔ x ∈ s) := by
  refine ⟨flags_are_bits, by decide, rfl, ?_⟩
  obtain ⟨k, _, rfl⟩ := (flag_mem_iff x).1 hx
  rw [← Nat.one_shiftLeft, flag_check_bit, flags_or, fold_or_testBit, LCFS_INODE_FLAGS_NONE,
    Nat.zero_testBit, Bool.false_or, List.any_eq_true, Nat.one_shiftLeft]
  constructor
  · rintro ⟨f, hf, hbit⟩
    obtain ⟨j, _, rfl⟩ := (flag_mem_iff f).1 (hs f hf)
    rw [Nat.testBit_two_pow] at hbit
    have hjk : j = k := by simpa using hbit
    exact hjk ▸ hf
  · intro hmem
    exact ⟨2 ^ k, hmem, Nat.testBit_two_pow_self⟩

/-- Witness for C18: in the OR of MODE, TIMES and DIGEST the check finds TIMES
and does not find NLINK. -/
theorem flag_check_tests_membership_witness :
    LCFS_INODE_FLAG_CHECK
      (flags_or [LCFS_INODE_FLAGS_MODE, LCFS_INODE_FLAGS_TIMES, LCFS_INODE_FLAGS_DIGEST])
      LCFS_INODE_FLAGS_TIMES = true ∧
    LCFS_INODE_FLAG_CHECK
      (flags_or [LCFS_INODE_FLAGS_MODE, LCFS_INODE_FLAGS_TIMES, LCFS_INODE_FLAGS_DIGEST])
      LCFS_INODE_FLAGS_NLINK = false ∧
    flags_or [LCFS_INODE_FLAGS_MODE, LCFS_INODE_FLAGS_TIMES, LCFS_INODE_FLAGS_DIGEST] = 0x422 := by
  have h := flag_check_tests_membership
    [LCFS_INODE_FLAGS_MODE, LCFS_INODE_FLAGS_TIMES, LCFS_INODE_FLAGS_DIGEST]
    LCFS_INODE_FLAGS_TIMES (by decide) (by decide)
  exact ⟨h.2.2.2.2 (by decide), by decide, by decide⟩

/-! ### Bounds of the encoded size -/

theorem field_sum_le (a : Nat) : ∀ fields : List (Nat × Nat),
    (fields.map (fun e => if a.testBit e.1 then e.2 else 0)).sum ≤ (fields.map (fun e => e.2)).sum
  | [] => by simp
  | e :: fields => by
    have ih := field_sum_le a fields
    simp only [List.map_cons, List.sum_cons]
    split <;> omega

theorem field_sum_zero_iff (a : Nat) : ∀ fields : List (Nat × Nat), (∀ e ∈ fields, 0 < e.2) →
    ((fields.map (fun e => if a.testBit e.1 then e.2 else 0)).sum = 0 ↔
      ∀ e ∈ fields, a.testBit e.1 = false)
  | [], _ => by simp
  | e :: fields, hpos => by
    have ih := field_sum_zero_iff a fields (fun x hx => hpos x (by simp [hx]))
    have he : 0 < e.2 := hpos e (by simp)
    simp only [List.map_cons, List.sum_cons, List.mem_cons, forall_eq_or_imp]
    cases hb : a.testBit e.1 with
    | true =>
      simp only [if_true, Bool.true_eq_false, false_and, iff_false]
      omega
    | false =>
      simp only [Bool.false_eq_true, if_false, Nat.zero_add, true_and]
      exact ih

theorem field_sum_full_iff (a : Nat) : ∀ fields : List (Nat × Nat), (∀ e ∈ fields, 0 < e.2) →
    ((fields.map (fun e => if a.testBit e.1 then e.2 else 0)).sum =
        (fields.map (fun e => e.2)).sum ↔
      ∀ e ∈ fields, a.testBit e.1 = true)
  | [], _ => by simp
  | e :: fields, hpos => by
    have ih := field_sum_full_iff a fields (fun x hx => hpos x (by simp [hx]))
    have hle := field_sum_le a fields
    have he : 0 < e.2 := hpos e (by simp)
    simp only [List.map_cons, List.sum_cons, List.mem_cons, forall_eq_or_imp]
    cases hb : a.testBit e.1 with
    | true =>
      simp only [if_true, true_and]
      rw [← ih]
      omega
    | false =>
      simp only [Bool.false_eq_true, if_false, Nat.zero_add, false_and, iff_false]
      omega

theorem field_sum_mono (a b : Nat) : ∀ fields : List (Nat × Nat),
    (∀ e ∈ fields, a.testBit e.1 = true → b.testBit e.1 = true) →
    (fields.map (fun e => if a.testBit e.1 then e.2 else 0)).sum ≤
      (fields.map (fun e => if b.testBit e.1 then e.2 else 0)).sum
  | [], _ => by simp
  | e :: fields, h => by
    have ih := field_sum_mono a b fields (fun x hx => h x (by simp [hx]))
    have he := h e (by simp)
    simp only [List.map_cons, List.sum_cons]
    cases ha : a.testBit e.1 with
    | true => rw [he ha]; simp only [if_true]; omega
    | false => simp only [Bool.false_eq_true, if_false, Nat.zero_add]; split <;> omega

theorem field_bits (p : Nat → Prop) :
    (∀ e ∈ inode_field_widths, p e.1) ↔ ∀ i, i < 11 → p i := by
  constructor
  · intro h i hi
    interval_cases i
    · exact h (0, 4) (by decide)
    · exact h (1, 4) (by decide)
    · exact h (2, 4) (by decide)
    · exact h (3, 8) (by decide)
    · exact h (4, 4) (by decide)
    · exact h (5, 16) (by decide)
    · exact h (6, 8) (by decide)
    · exact h (7, 4) (by decide)
    · exact h (8, 4) (by decide)
    · exact h (9, 8) (by decide)
    · exact h (10, 32) (by decide)
  · intro h e he
    simp only [inode_field_widths, List.mem_cons, List.mem_singleton, List.not_mem_nil,
      or_false] at he
    rcases he with rfl | rfl | rfl | rfl | rfl | rfl | rfl | rfl | rfl | rfl | rfl <;>
      exact h _ (by decide)

theorem encoded_size_sum (flags : Nat) :
    4 +
      LCFS_INODE_FLAG_CHECK_SIZE flags LCFS_INODE_FLAGS_PAYLOAD 4 +
      LCFS_INODE_FLAG_CHECK_SIZE flags LCFS_INODE_FLAGS_MODE 4 +
      LCFS_INODE_FLAG_CHECK_SIZE flags LCFS_INODE_FLAGS_NLINK 4 +
      LCFS_INODE_FLAG_CHECK_SIZE flags LCFS_INODE_FLAGS_UIDGID (4 + 4) +
      LCFS_INODE_FLAG_CHECK_SIZE flags LCFS_INODE_FLAGS_RDEV 4 +
      LCFS_INODE_FLAG_CHECK_SIZE flags LCFS_INODE_FLAGS_TIMES (8 * 2) +
      LCFS_INODE_FLAG_CHECK_SIZE flags LCFS_INODE_FLAGS_TIMES_NSEC (4 * 2) +
      LCFS_INODE_FLAG_CHECK_SIZE flags LCFS_INODE_FLAGS_LOW_SIZE 4 +
      LCFS_INODE_FLAG_CHECK_SIZE flags LCFS_INODE_FLAGS_HIGH_SIZE 4 +
      LCFS_INODE_FLAG_CHECK_SIZE flags LCFS_INODE_FLAGS_XATTRS (4 * 2) +
      LCFS_INODE_FLAG_CHECK_SIZE flags LCFS_INODE_FLAGS_DIGEST LCFS_DIGEST_SIZE =
    spec_encoded_size flags := by
  simp only [LCFS_INODE_FLAGS_PAYLOAD, LCFS_INODE_FLAGS_MODE,
    LCFS_INODE_FLAGS_NLINK, LCFS_INODE_FLAGS_UIDGID, LCFS_INODE_FLAGS_RDEV,
    LCFS_INODE_FLAGS_TIMES, LCFS_INODE_FLAGS_TIMES_NSEC, LCFS_INODE_FLAGS_LOW_SIZE,
    LCFS_INODE_FLAGS_HIGH_SIZE, LCFS_INODE_FLAGS_XATTRS, LCFS_INODE_FLAGS_DIGEST,
    LCFS_DIGEST_SIZE, flag_check_size_bit, spec_encoded_size, inode_field_widths,
    List.map_cons, List.map_nil, List.sum_cons, List.sum_nil, Nat.reduceAdd, Nat.reduceMul]
  omega

/-- C19: for every flags word, `4 <= lcfs_inode_encoded_size(flags) <= 100`,
and the sum the function forms is below `2^32`, so that the `u32` it returns
is the sum itself; the value is 4 exactly when none of the bits 0..10 is set
and 100 exactly when all of them are set; and the size is monotone: when every
bit set in `a` is set in `b`, the size for `a` is at most the size for `b`. -/
theorem encoded_size_bounds (a b : Nat) :
    4 ≤ lcfs_inode_encoded_size a ∧ lcfs_inode_encoded_size a ≤ 100 ∧
    (4 +
      LCFS_INODE_FLAG_CHECK_SIZE a LCFS_INODE_FLAGS_PAYLOAD 4 +
      LCFS_INODE_FLAG_CHECK_SIZE a LCFS_INODE_FLAGS_MODE 4 +
      LCFS_INODE_FLAG_CHECK_SIZE a LCFS_INODE_FLAGS_NLINK 4 +
      LCFS_INODE_FLAG_CHECK_SIZE a LCFS_INODE_FLAGS_UIDGID (4 + 4) +
      LCFS_INODE_FLAG_CHECK_SIZE a LCFS_INODE_FLAGS_RDEV 4 +
      LCFS_INODE_FLAG_CHECK_SIZE a LCFS_INODE_FLAGS_TIMES (8 * 2) +
      LCFS_INODE_FLAG_CHECK_SIZE a LCFS_INODE_FLAGS_TIMES_NSEC (4 * 2) +
      LCFS_INODE_FLAG_CHECK_SIZE a LCFS_INODE_FLAGS_LOW_SIZE 4 +
      LCFS_INODE_FLAG_CHECK_SIZE a LCFS_INODE_FLAGS_HIGH_SIZE 4 +
      LCFS_INODE_FLAG_CHECK_SIZE a LCFS_INODE_FLAGS_XATTRS (4 * 2) +
      LCFS_INODE_FLAG_CHECK_SIZE a LCFS_INODE_FLAGS_DIGEST LCFS_DIGEST_SIZE < 2 ^ 32) ∧
    (lcfs_inode_encoded_size a = 4 ↔ ∀ i, i < 11 → a.testBit i = false) ∧
    (lcfs_inode_encoded_size a = 100 ↔ ∀ i, i < 11 → a.testBit i = true) ∧
    ((∀ i, a.testBit i = true → b.testBit i = true) →
      lcfs_inode_encoded_size a ≤ lcfs_inode_encoded_size b) := by
  have hpos : ∀ e ∈ inode_field_widths, 0 < e.2 := by decide
  have htot : (inode_field_widths.map (fun e => e.2)).sum = 96 := by decide
  have hle := field_sum_le a inode_field_widths
  have hz := field_sum_zero_iff a inode_field_widths hpos
  have hf := field_sum_full_iff a inode_field_widths hpos
  rw [htot] at hle hf
  rw [field_bits (fun i => a.testBit i = false)] at hz
  rw [field_bits (fun i => a.testBit i = true)] at hf
  rw [encoded_size_sum, encoded_size_eq_spec a, encoded_size_eq_spec b]
  unfold spec_encoded_size
  refine ⟨by omega, by omega, by omega, ?_, ?_, fun hsub => ?_⟩
  · rw [← hz]; omega
  · rw [← hf]; omega
  · have hm := field_sum_mono a b inode_field_widths (fun e _ => hsub e.1)
    omega

/-- Witness for C19: the size is 4 for no flag, 100 for all eleven field
flags, and grows from 12 to 44 when DIGEST is added to PAYLOAD and MODE. -/
theorem encoded_size_bounds_witness :
    lcfs_inode_encoded_size 0 = 4 ∧ lcfs_inode_encoded_size 0xffffffff = 100 ∧
    lcfs_inode_encoded_size 3 = 12 ∧ lcfs_inode_encoded_size 0x403 = 44 ∧
    lcfs_inode_encoded_size 3 ≤ lcfs_inode_encoded_size 0x403 := by
  have h := encoded_size_bounds 3 0x403
  refine ⟨by decide, by decide, by decide, by decide, h.2.2.2.2.2 ?_⟩
  intro i hi
  by_cases h2 : i < 2
  · interval_cases i <;> decide
  · have hlt : (3 : Nat) < 2 ^ i :=
      Nat.lt_of_lt_of_le (by norm_num : (3 : Nat) < 2 ^ 2)
        (Nat.pow_le_pow_right (by norm_num) (by omega))
    rw [Nat.testBit_lt_two_pow hlt] at hi
    exact absurd hi (by decide)

end Composefs
